import Mathlib

/-!
Verification of the Erwig teaching interpreter (parameter-passing conventions
and scoping disciplines).  The development shallowly embeds the four source
modules — the statement parser and expression analyzer (parse.py), the command
model and execution engine (command.py), and the activation-record runtime
(runtime.py) — and proves or refutes the frozen claims about them.

Strings are modelled as lists of characters.  Python's `re` usage is embedded
by a small backtracking prefix-matcher whose priority order (leftmost
alternation, greedy quantifiers) coincides with Python's, specialised to the
regular expressions appearing in parse.py and command.py.  `eval` of the
translated expression strings is embedded by tokenising exactly as
`translate_vars` does and interpreting the resulting token list with Python's
integer arithmetic; fallible operations (IndexError, KeyError, TypeError,
ValueError, SyntaxError, unbounded recursion) return `Option.none`.
-/

namespace Erwig

/-- Program text, modelled as a list of characters. -/
abbrev Str := List Char

/-- Convenience coercion from Lean string literals. -/
def strOf (s : String) : Str := s.data

/-! ## Character classes of parse.py's regular expressions -/

/-- The class `[A-Za-z0-9_]` bound to `name` in parse.py. -/
def isNameChar (c : Char) : Bool :=
  (decide ('A' ≤ c) && decide (c ≤ 'Z')) ||
  (decide ('a' ≤ c) && decide (c ≤ 'z')) ||
  (decide ('0' ≤ c) && decide (c ≤ '9')) || decide (c = '_')

/-- The class `[A=Za-z0-9_ \t\(\)\+\-\*/]` bound to `r_expr` in parse.py.
Note the source's `A=Z` is a literal three-character run inside the class, so
uppercase letters other than `A` and `Z` are not members. -/
def isExprChar (c : Char) : Bool :=
  decide (c = 'A') || decide (c = '=') || decide (c = 'Z') ||
  (decide ('a' ≤ c) && decide (c ≤ 'z')) ||
  (decide ('0' ≤ c) && decide (c ≤ '9')) ||
  decide (c = '_') || decide (c = ' ') || decide (c = '\t') ||
  decide (c = '(') || decide (c = ')') ||
  decide (c = '+') || decide (c = '-') || decide (c = '*') || decide (c = '/')

/-- Python's `\s` (ASCII range). -/
def isWs (c : Char) : Bool :=
  decide (c = ' ') || decide (c = '\t') || decide (c = '\n') ||
  decide (c = '\r') || decide (c = '\x0b') || decide (c = '\x0c')

/-- Python's `str.isnumeric` restricted to ASCII: nonempty and all digits. -/
def isNumericStr (s : Str) : Bool :=
  !s.isEmpty && s.all (fun c => decide ('0' ≤ c) && decide (c ≤ '9'))

/-- Python's `str.strip`: drop leading and trailing whitespace. -/
def stripStr (s : Str) : Str :=
  ((s.dropWhile isWs).reverse.dropWhile isWs).reverse

/-! ## A backtracking regular-expression prefix matcher

`matchPre r s` returns the list of possible remainders of `s` after a prefix
match of `r`, in Python's backtracking priority order: alternation tries the
left branch first, quantifiers are greedy (longest repetition first).  The
head of the list therefore corresponds to the match `re.match` produces. -/

inductive Re
  | eps
  | cls (p : Char → Bool)
  | lit (cs : Str)
  | seq (a b : Re)
  | alt (a b : Re)
  | opt (a : Re)
  | rep0 (a : Re)
  | rep1 (a : Re)

/-- Remainders after zero or more greedy repetitions of a matcher `m`,
longest first.  Repetitions that consume nothing are not iterated, matching
the regex engine's empty-match loop protection. -/
def matchRep (m : Str → List Str) : Nat → Str → List Str
  | 0, s => [s]
  | fuel + 1, s =>
    (((m s).filter (fun t => t.length < s.length)).flatMap
      (fun t => matchRep m fuel t)) ++ [s]

/-- All prefix-match remainders of `r` against `s`, in priority order. -/
def matchPre : Re → Str → List Str
  | Re.eps, s => [s]
  | Re.cls p, s =>
    match s with
    | [] => []
    | c :: tl => if p c then [tl] else []
  | Re.lit cs, s => if cs.isPrefixOf s then [s.drop cs.length] else []
  | Re.seq a b, s => (matchPre a s).flatMap (fun t => matchPre b t)
  | Re.alt a b, s => matchPre a s ++ matchPre b s
  | Re.opt a, s => matchPre a s ++ [s]
  | Re.rep0 a, s => matchRep (fun t => matchPre a t) s.length s
  | Re.rep1 a, s =>
    (matchPre a s).flatMap (fun t => matchRep (fun t' => matchPre a t') t.length t)

/-- Python `re.match`: the first (priority-order) prefix match, returned as
`(group0, remainder)`. -/
def reMatch (r : Re) (s : Str) : Option (Str × Str) :=
  match matchPre r s with
  | [] => none
  | t :: _ => some (s.take (s.length - t.length), t)

/-- Python `re.split` without captured groups: scan left to right, cutting at
each nonempty leftmost match.  All separator patterns used by the source
always consume at least one character. -/
def reSplitGo (r : Re) : Nat → Str → Str → List Str
  | _, acc, [] => [acc.reverse]
  | 0, acc, s => [acc.reverse ++ s]
  | fuel + 1, acc, s =>
    match reMatch r s with
    | some (g0, rest) =>
      if g0.isEmpty then
        match s with
        | [] => [acc.reverse]
        | c :: tl => reSplitGo r fuel (c :: acc) tl
      else acc.reverse :: reSplitGo r fuel [] rest
    | none =>
      match s with
      | [] => [acc.reverse]
      | c :: tl => reSplitGo r fuel (c :: acc) tl

def reSplit (r : Re) (s : Str) : List Str := reSplitGo r (s.length + 1) [] s

/-- Python `re.split` with every alternative parenthesised, followed by
`filter(None, ·)`: pieces and matched separator texts interleaved, empty
entries dropped (as in `translate_vars`). -/
def reSplitKeepGo (r : Re) : Nat → Str → Str → List Str
  | _, acc, [] => [acc.reverse]
  | 0, acc, s => [acc.reverse ++ s]
  | fuel + 1, acc, s =>
    match reMatch r s with
    | some (g0, rest) =>
      if g0.isEmpty then
        match s with
        | [] => [acc.reverse]
        | c :: tl => reSplitKeepGo r fuel (c :: acc) tl
      else acc.reverse :: g0 :: reSplitKeepGo r fuel [] rest
    | none =>
      match s with
      | [] => [acc.reverse]
      | c :: tl => reSplitKeepGo r fuel (c :: acc) tl

def reSplitKeep (r : Re) (s : Str) : List Str :=
  (reSplitKeepGo r (s.length + 1) [] s).filter (fun p => !p.isEmpty)

/-- Python `re.findall(...)[0]`-style first match: scan for the leftmost
position with a match and return its group 0. -/
def reFindFirst (r : Re) : Nat → Str → Option Str
  | _, [] =>
    none
  | 0, _ => none
  | fuel + 1, s =>
    match reMatch r s with
    | some (g0, _) => if g0.isEmpty then none else some g0
    | none =>
      match s with
      | [] => none
      | _ :: tl => reFindFirst r fuel tl

def reFindFirstG0 (r : Re) (s : Str) : Option Str := reFindFirst r (s.length + 1) s

/-! ## The concrete regular expressions of parse.py -/

def wsP : Re := Re.rep1 (Re.cls isWs)
def wsS : Re := Re.rep0 (Re.cls isWs)
def nameP : Re := Re.rep1 (Re.cls isNameChar)
def exprP : Re := Re.rep1 (Re.cls isExprChar)

/-- `r_cond`: alternation of `=`, `>`, `<`, `>=`, `<=`, `!=`, in this order. -/
def condRe : Re :=
  Re.alt (Re.lit (strOf "="))
    (Re.alt (Re.lit (strOf ">"))
      (Re.alt (Re.lit (strOf "<"))
        (Re.alt (Re.lit (strOf ">="))
          (Re.alt (Re.lit (strOf "<=")) (Re.lit (strOf "!="))))))

/-- `r_params`: optional alternation of the multi-parameter form and the
single-parameter form. -/
def paramsRe : Re :=
  Re.opt
    (Re.alt
      (Re.seq nameP (Re.seq wsP (Re.seq nameP
        (Re.rep1 (Re.seq wsS (Re.seq (Re.lit (strOf ",")) (Re.seq wsS
          (Re.seq nameP (Re.seq wsP nameP)))))))))
      (Re.seq nameP (Re.seq wsP nameP)))

/-- The function-declaration line shape. -/
def funcDeclRe : Re :=
  Re.seq nameP (Re.seq wsP (Re.seq nameP (Re.seq (Re.lit (strOf "("))
    (Re.seq paramsRe (Re.seq (Re.lit (strOf ")")) (Re.seq wsS (Re.lit (strOf "\x7b"))))))))

/-- The return-statement line shape. -/
def returnRe : Re := Re.seq (Re.lit (strOf "return")) (Re.seq wsP exprP)

/-- The conditional line shape. -/
def ifRe : Re :=
  Re.seq (Re.lit (strOf "if")) (Re.seq wsP (Re.seq exprP (Re.seq wsS
    (Re.seq condRe (Re.seq wsS (Re.seq exprP (Re.seq wsS (Re.lit (strOf "\x7b")))))))))

/-- The declare-and-assign line shape. -/
def declAssignRe : Re :=
  Re.seq nameP (Re.seq wsP (Re.seq nameP (Re.seq wsS
    (Re.seq (Re.opt (Re.lit (strOf ":"))) (Re.seq (Re.lit (strOf "=")) (Re.seq wsS exprP))))))

/-- The bare declaration line shape `name+\s+name+`. -/
def declRe : Re := Re.seq nameP (Re.seq wsP nameP)

/-- The bare assignment line shape. -/
def assignRe : Re :=
  Re.seq nameP (Re.seq wsS
    (Re.seq (Re.opt (Re.lit (strOf ":"))) (Re.seq (Re.lit (strOf "=")) (Re.seq wsS exprP))))

/-- The separator `\s*:?=\s*`. -/
def assignEqRe : Re :=
  Re.seq wsS (Re.seq (Re.opt (Re.lit (strOf ":"))) (Re.seq (Re.lit (strOf "=")) wsS))

/-- The separator `\s*,\s*`. -/
def commaRe : Re := Re.seq wsS (Re.seq (Re.lit (strOf ",")) wsS)

/-- The pattern `name+\s*\(` that opens a function call in an expression. -/
def nameLParenRe : Re := Re.seq nameP (Re.seq wsS (Re.lit (strOf "(")))

/-- The split separator `\s*{r_cond}\s*` used on conditional expressions. -/
def condSplitRe : Re := Re.seq wsS (Re.seq condRe wsS)

/-- The split separator `return\s+`. -/
def returnSplitRe : Re := Re.seq (Re.lit (strOf "return")) wsP

/-- The split separator `\s*\(`. -/
def wsLParenRe : Re := Re.seq wsS (Re.lit (strOf "("))

/-- The split separator `\s+`. -/
def wsSplitRe : Re := wsP

/-- One alternative of the tokenising split in `translate_vars`:
`\s?OP\s?` with a single optional whitespace character on each side. -/
def opRe (c : Char) : Re :=
  Re.seq (Re.opt (Re.cls isWs)) (Re.seq (Re.lit [c]) (Re.opt (Re.cls isWs)))

/-- The quoted-token alternative `(\".+\")` — note the greedy `.+`, which runs
to the last quote of the remaining text. -/
def quotRe : Re :=
  Re.seq (Re.lit (strOf "\"")) (Re.seq (Re.rep1 (Re.cls (fun c => !decide (c = '\n'))))
    (Re.lit (strOf "\"")))

/-- The full tokenising split pattern of `translate_vars`. -/
def transRe : Re :=
  Re.alt quotRe
    (Re.alt (Re.lit (strOf "("))
      (Re.alt (Re.lit (strOf ")"))
        (Re.alt (opRe '+') (Re.alt (opRe '-') (Re.alt (opRe '*') (opRe '/'))))))

/-! ## The command model (command.py) -/

/-- `CallTypeEnum` of runtime.py. -/
inductive CallType
  | CBV | CBR | CBVR | CBNEED | CBNAME
deriving DecidableEq, Repr

/-- The six normalised comparison kinds produced by `cond_lookup`. -/
inductive CmpOp
  | ceq | cne | clt | cgt | cle | cge
deriving DecidableEq, Repr

/-- One token of a translated expression string, as produced by the
tokenising split in `translate_vars` and classified by its `for elem` loop.
`cmpE` only arises when `conditional` concatenates the two translated sides
with the looked-up comparison operator. -/
inductive Elem
  | num (s : Str)
  | quoted (s : Str)
  | op (c : Char)
  | var (s : Str)
  | cmpE (c : CmpOp)
deriving DecidableEq, Repr

/-- Classify one nonempty split element exactly as `translate_vars` does:
stripped operator/parenthesis, numeric literal, quote-initial token
reference, or variable lookup (with the element text used verbatim). -/
def classifyElem (e : Str) : Elem :=
  let st := stripStr e
  if st = ['+'] then Elem.op '+'
  else if st = ['-'] then Elem.op '-'
  else if st = ['*'] then Elem.op '*'
  else if st = ['/'] then Elem.op '/'
  else if st = ['('] then Elem.op '('
  else if st = [')'] then Elem.op ')'
  else if isNumericStr e then Elem.num e
  else if e.head? = some '"' then Elem.quoted e
  else Elem.var e

/-- The token view of `translate_vars expr`: the translated Python code
string is the concatenation of one code snippet per element, so the element
list determines the behaviour of the later `eval` completely. -/
def elemsOf (s : Str) : List Elem := (reSplitKeep transRe s).map classifyElem

/-- Commands (`Command` of command.py with its `CommandTypeEnum` tags and
the `data` dictionary fields each tag actually reads).  A function body is a
command list plus its line data, as produced by the recursive `parse_input`
call. -/
inductive Cmd
  | scopeNew
  | scopeDel (isFunc : Bool)
  | declareVar (name : Str)
  | declareFunc (name : Str) (bodyCmds : List Cmd)
      (bodyLines : List (Int × Int × Int)) (params : List Str)
  | assignVar (name : Str) (value : Str)
  | funcCall (name : Str) (args : List Str)
  | retCmd (value : Str)
  | storeFuncRet (uuid : Str)
  | valueResult (name : Str) (args : List Str)
  | condCmd (left : Str) (condOp : Str) (right : Str)
      (ifCmds : List Cmd) (ifLines : List (Int × Int × Int))
      (elseCmds : List Cmd) (elseLines : List (Int × Int × Int))
deriving Repr

/-- `Function` of runtime.py: name, body (commands plus line data),
parameter names, and the record index captured at declaration time. -/
structure Fn where
  name : Str
  bodyCmds : List Cmd
  bodyLines : List (Int × Int × Int)
  params : List Str
  rindex : Int
deriving Repr

/-- A Python value as stored in a record entry: `None`, an `int`, a stored
translated-code string (represented by its token view), or a `Function`
object. -/
inductive PyVal
  | pnone
  | pint (n : Int)
  | pdefer (elems : List Elem)
  | pfunc (f : Fn)
deriving Repr

/-- Python `!=` on the values that can meet in this program: `None` equals
only `None`, ints compare by value, stored strings by text (token view), and
`Function` instances — a fieldless dataclass — all compare equal. -/
def pyEqB : PyVal → PyVal → Bool
  | PyVal.pnone, PyVal.pnone => true
  | PyVal.pint m, PyVal.pint n => decide (m = n)
  | PyVal.pdefer a, PyVal.pdefer b => decide (a = b)
  | PyVal.pfunc _, PyVal.pfunc _ => true
  | _, _ => false

/-- `ActivatationRecord`: an insertion-ordered mapping plus the calltype. -/
structure ARecord where
  entries : List (Str × PyVal)
  calltype : CallType
deriving Repr

/-- The first component of a `func_stack` entry.  `push_func` is normally
given the declaration index (an int), but `value_result` passes it the whole
tuple returned by `pop_func`; the static-scoping code path crashes with a
TypeError when it tries to build a range from such a tuple. -/
inductive RIdx
  | int (n : Int)
  | tup (r : RIdx) (sindex : Int) (fname : Str)
deriving Repr

/-- `RuntimeStack`.  `records` is kept in Python order (index 0 oldest, last
element the top).  `funcStack` and the dictionaries are kept with the most
recent element at the head (Python's `[-1]`/`append`/`pop` end). -/
structure Stack where
  records : List ARecord
  typing : Bool
  calltype : CallType
  ret : PyVal
  funcStack : List (RIdx × Int × Str)
  funcReturns : List (Str × PyVal)
deriving Repr

/-- The initial `RuntimeStack(type, calltype)`. -/
def initStack (tp : Bool) (ct : CallType) : Stack :=
  { records := [], typing := tp, calltype := ct, ret := PyVal.pnone,
    funcStack := [], funcReturns := [] }

/-! ## Python dict and list primitives -/

/-- Dict lookup (keys are unique by construction of `dictSet`). -/
def dictFind (d : List (Str × PyVal)) (k : Str) : Option PyVal :=
  match d with
  | [] => none
  | (k', v) :: tl => if k' = k then some v else dictFind tl k

/-- Dict store: update in place if the key is present (keeping its insertion
position), else append at the end. -/
def dictSet (d : List (Str × PyVal)) (k : Str) (v : PyVal) : List (Str × PyVal) :=
  match d with
  | [] => [(k, v)]
  | (k', v') :: tl => if k' = k then (k, v) :: tl else (k', v') :: dictSet tl k v

/-- Python list indexing with negative wrap-around; out of range is an
IndexError. -/
def pyIdx (len : Nat) (i : Int) : Option Nat :=
  if 0 ≤ i then (if i < (len : Int) then some i.toNat else none)
  else (if -(len : Int) ≤ i then some (len - (-i).toNat) else none)

def pyGet (l : List α) (i : Int) : Option α :=
  (pyIdx l.length i).bind (fun n => l.get? n)

def pySet (l : List α) (i : Int) (a : α) : Option (List α) :=
  (pyIdx l.length i).map (fun n => l.set n a)

/-- Helper for `intRangeDown`: `n` descending values starting at `x`. -/
def intRangeDownGo : Nat → Int → List Int
  | 0, _ => []
  | n + 1, x => x :: intRangeDownGo n (x - 1)

/-- `range(a, b, -1)` as a list of ints: `[a, a-1, ..., b+1]`. -/
def intRangeDown (a b : Int) : List Int := intRangeDownGo (a - b).toNat a

/-! ## The expression grammar of translated code strings

`translate_vars` emits a Python expression built from integer literals,
`stack.get_value('x')` reads, `stack.func_ret("uuid")` reads, parentheses and
the four operators; `eval` then parses and evaluates it.  `Expr` is the parse
tree of that code, obtained from the token view by `parseElems` below. -/

inductive Expr
  | lit (n : Nat)
  | var (s : Str)
  | tok (key : Option Str)
  | neg (e : Expr)
  | uplus (e : Expr)
  | add (a b : Expr)
  | sub (a b : Expr)
  | mul (a b : Expr)
  | div (a b : Expr)
  | cmp (c : CmpOp) (a b : Expr)
deriving Repr

/-- The key handed to `stack.func_ret` by a quote-initial element: the
element text is pasted into the code verbatim, so it evaluates as a Python
string expression — string literals joined by `+` (or juxtaposition)
concatenate; anything else raises.  Returns the resulting key string. -/
def pyStrKeyAux : Nat → Str → Option Str
  | 0, _ => none
  | fuel + 1, s =>
    let content := s.takeWhile (fun c => !decide (c = '"'))
    match s.dropWhile (fun c => !decide (c = '"')) with
    | '"' :: rest =>
      match rest.dropWhile isWs with
      | [] => some content
      | '+' :: r2 =>
        match r2.dropWhile isWs with
        | '"' :: tl => (pyStrKeyAux fuel tl).map (fun k => content ++ k)
        | _ => none
      | '"' :: tl => (pyStrKeyAux fuel tl).map (fun k => content ++ k)
      | _ => none
    | _ => none

def pyStrKey (s : Str) : Option Str :=
  match s with
  | '"' :: tl => pyStrKeyAux (s.length + 1) tl
  | _ => none

/-- Numeric value of a digit-string element. -/
def digitsVal (s : Str) : Nat :=
  s.foldl (fun acc c => 10 * acc + (c.toNat - '0'.toNat)) 0

/-! ## Parsing a token list as a Python expression

Recursive descent with Python's precedence: comparison below `+ -`, which
sit below `* /`, unary sign on factors, and a parenthesised subexpression is
a full expression again — in particular, when `conditional` splices a
comparison operator between the two translated sides, parentheses opened on
one side and closed on the other may enclose the comparison, exactly as
`eval` of the concatenated code string parses it.  A parse failure models
the SyntaxError that `eval` raises. -/

mutual

def parseC : Nat → List Elem → Option (Expr × List Elem)
  | 0, _ => none
  | fuel + 1, ts =>
    match parseE fuel ts with
    | none => none
    | some (a, Elem.cmpE c :: rest) =>
      match parseE fuel rest with
      | none => none
      | some (b, rest2) => some (Expr.cmp c a b, rest2)
    | some (a, rest) => some (a, rest)

def parseE : Nat → List Elem → Option (Expr × List Elem)
  | 0, _ => none
  | fuel + 1, ts =>
    match parseT fuel ts with
    | none => none
    | some (a, rest) => parseETail fuel a rest

def parseETail : Nat → Expr → List Elem → Option (Expr × List Elem)
  | 0, _, _ => none
  | fuel + 1, a, ts =>
    match ts with
    | Elem.op '+' :: tl =>
      match parseT fuel tl with
      | none => none
      | some (b, rest) => parseETail fuel (Expr.add a b) rest
    | Elem.op '-' :: tl =>
      match parseT fuel tl with
      | none => none
      | some (b, rest) => parseETail fuel (Expr.sub a b) rest
    | _ => some (a, ts)

def parseT : Nat → List Elem → Option (Expr × List Elem)
  | 0, _ => none
  | fuel + 1, ts =>
    match parseF fuel ts with
    | none => none
    | some (a, rest) => parseTTail fuel a rest

def parseTTail : Nat → Expr → List Elem → Option (Expr × List Elem)
  | 0, _, _ => none
  | fuel + 1, a, ts =>
    match ts with
    | Elem.op '*' :: tl =>
      match parseF fuel tl with
      | none => none
      | some (b, rest) => parseTTail fuel (Expr.mul a b) rest
    | Elem.op '/' :: tl =>
      match parseF fuel tl with
      | none => none
      | some (b, rest) => parseTTail fuel (Expr.div a b) rest
    | _ => some (a, ts)

def parseF : Nat → List Elem → Option (Expr × List Elem)
  | 0, _ => none
  | fuel + 1, ts =>
    match ts with
    | Elem.op '-' :: tl => (parseF fuel tl).map (fun p => (Expr.neg p.1, p.2))
    | Elem.op '+' :: tl => (parseF fuel tl).map (fun p => (Expr.uplus p.1, p.2))
    | Elem.op '(' :: tl =>
      match parseC fuel tl with
      | some (e, Elem.op ')' :: rest) => some (e, rest)
      | _ => none
    | Elem.num s :: tl => some (Expr.lit (digitsVal s), tl)
    | Elem.quoted s :: tl => some (Expr.tok (pyStrKey s), tl)
    | Elem.var s :: tl => some (Expr.var s, tl)
    | _ => none

end

/-- Parse a complete token list as one expression (`eval` of the translated
code string as an expression statement).  `conditional` evaluates the
concatenation `translate_vars(left) + op + translate_vars(right)` through
the same entry point: the comparison may sit at the top level or inside
parentheses shared across the spliced operator. -/
def parseElems (ts : List Elem) : Option Expr :=
  match parseC (4 * ts.length + 16) ts with
  | some (e, []) => some e
  | _ => none

/-! ## Layer 1: value reads (`get_value`) and expression evaluation

`ActivatationRecord.get_value` evaluates stored code strings against the live
stack and memoises under CBNEED, so reads both thread and mutate the stack.
The mutual recursion between `eval` and `get_value` is broken by a fuel
parameter: exhaustion models Python's RecursionError. -/

/-- The type of an expression evaluator at one smaller recursion depth. -/
abbrev Evaluator := Expr → Stack → Option (PyVal × Stack)

/-- `obtain()` inside `ActivatationRecord.get_value` (runtime.py 44-51), for
the record at Python index `i`: fetch the entry, `eval` it if it is a stored
string, and under CBNEED overwrite the binding when the evaluated value
differs from what the record currently holds. -/
def recordObtain (ev : Evaluator) (s : Stack) (i : Int) (name : Str) :
    Option (PyVal × Stack) :=
  match pyGet s.records i with
  | none => none
  | some rec0 =>
    match dictFind rec0.entries name with
    | none => none
    | some v0 =>
      match v0 with
      | PyVal.pdefer elems =>
        match parseElems elems with
        | none => none
        | some e =>
          match ev e s with
          | none => none
          | some (v, s1) =>
            match pyGet s1.records i with
            | none => none
            | some rec1 =>
              match dictFind rec1.entries name with
              | none => none
              | some cur =>
                if rec1.calltype = CallType.CBNEED && !pyEqB v cur then
                  match pySet s1.records i
                      { rec1 with entries := dictSet rec1.entries name v } with
                  | none => none
                  | some rs => some (v, { s1 with records := rs })
                else some (v, s1)
      | _ => some (v0, s)

/-- The declaration-order loop of `ActivatationRecord.get_value` when a
function name is supplied: entries are inspected in insertion order and the
scan stops (returning `None`) as soon as it reaches the entry for the
function itself. -/
def recordGetScan (ev : Evaluator) (s : Stack) (i : Int) (name fn : Str) :
    List (Str × PyVal) → Option (PyVal × Stack)
  | [] => some (PyVal.pnone, s)
  | (k, _) :: tl =>
    if k = fn then some (PyVal.pnone, s)
    else if k = name then recordObtain ev s i name
    else recordGetScan ev s i name fn tl

/-- `ActivatationRecord.get_value` on the record at Python index `i`. -/
def recordGet (ev : Evaluator) (s : Stack) (i : Int) (name : Str)
    (fname : Option Str) : Option (PyVal × Stack) :=
  match pyGet s.records i with
  | none => none
  | some rec0 =>
    match fname with
    | some fn => recordGetScan ev s i name fn rec0.entries
    | none =>
      if (dictFind rec0.entries name).isSome then recordObtain ev s i name
      else some (PyVal.pnone, s)

/-- One lookup loop of `RuntimeStack.get_value`: try the records at the given
indices in order, returning the first value that is not `None`. -/
def scanRecords (ev : Evaluator) (s : Stack) (name : Str) (fname : Option Str) :
    List Int → Option (PyVal × Stack)
  | [] => some (PyVal.pnone, s)
  | i :: tl =>
    match recordGet ev s i name fname with
    | none => none
    | some (v, s1) =>
      if pyEqB v PyVal.pnone then scanRecords ev s1 name fname tl
      else some (v, s1)

/-- `RuntimeStack.get_value` (runtime.py 179-203), parameterised by the
evaluator used for stored code strings. -/
def stackGetP (ev : Evaluator) (s : Stack) (name : Str) : Option (PyVal × Stack) :=
  if !s.funcStack.isEmpty && s.typing = false then
    match s.funcStack with
    | [] => none
    | (ri, sindex, fn) :: _ =>
      match scanRecords ev s name none
          (intRangeDown ((s.records.length : Int) - 1) (sindex - 1)) with
      | none => none
      | some (v, s1) =>
        if !pyEqB v PyVal.pnone then some (v, s1)
        else
          match ri with
          | RIdx.tup _ _ _ => none
          | RIdx.int r => scanRecords ev s1 name (some fn) (intRangeDown r (-1))
  else
    scanRecords ev s name none (intRangeDown ((s.records.length : Int) - 1) (-1))

/-- Python integer arithmetic on the values that can appear: ints only,
anything else raises.  True division produces floats and is outside the
integer value model; no program in this development evaluates it. -/
def pyArith (c : Char) (a b : PyVal) : Option PyVal :=
  match a, b with
  | PyVal.pint m, PyVal.pint n =>
    if c = '+' then some (PyVal.pint (m + n))
    else if c = '-' then some (PyVal.pint (m - n))
    else if c = '*' then some (PyVal.pint (m * n))
    else none
  | _, _ => none

/-- Python comparison on the values that can meet here: equality is total
(`None`/`Function` mismatches are just unequal), order comparisons demand
ints. -/
def pyCompare (c : CmpOp) (a b : PyVal) : Option Bool :=
  match c with
  | CmpOp.ceq => some (pyEqB a b)
  | CmpOp.cne => some (!pyEqB a b)
  | CmpOp.clt =>
    match a, b with
    | PyVal.pint m, PyVal.pint n => some (decide (m < n))
    | _, _ => none
  | CmpOp.cgt =>
    match a, b with
    | PyVal.pint m, PyVal.pint n => some (decide (n < m))
    | _, _ => none
  | CmpOp.cle =>
    match a, b with
    | PyVal.pint m, PyVal.pint n => some (decide (m ≤ n))
    | _, _ => none
  | CmpOp.cge =>
    match a, b with
    | PyVal.pint m, PyVal.pint n => some (decide (n ≤ m))
    | _, _ => none

/-- Python truth test (`if boolean:`): `None` and zero are falsy, a
nonempty string and a `Function` object are truthy.  A Python `bool` is an
`int` subclass whose `True`/`False` behave as `1`/`0` in every context this
interpreter can reach (arithmetic and the truth test), so the value model
carries comparison results as ints. -/
def pyTruthy : PyVal → Bool
  | PyVal.pnone => false
  | PyVal.pint n => !decide (n = 0)
  | PyVal.pdefer e => !e.isEmpty
  | PyVal.pfunc _ => true

/-- Evaluate the parse tree of a translated code string: literals,
`stack.get_value` reads, `stack.func_ret` reads, and arithmetic, threading
the stack left to right. -/
def evalCore (get : Str → Stack → Option (PyVal × Stack)) :
    Expr → Stack → Option (PyVal × Stack)
  | Expr.lit n, s => some (PyVal.pint n, s)
  | Expr.var v, s => get v s
  | Expr.tok none, _ => none
  | Expr.tok (some k), s =>
    match dictFind s.funcReturns k with
    | none => none
    | some v => some (v, s)
  | Expr.neg a, s =>
    match evalCore get a s with
    | some (PyVal.pint n, s1) => some (PyVal.pint (-n), s1)
    | _ => none
  | Expr.uplus a, s =>
    match evalCore get a s with
    | some (PyVal.pint n, s1) => some (PyVal.pint n, s1)
    | _ => none
  | Expr.add a b, s =>
    match evalCore get a s with
    | none => none
    | some (va, s1) =>
      match evalCore get b s1 with
      | none => none
      | some (vb, s2) => (pyArith '+' va vb).map (fun v => (v, s2))
  | Expr.sub a b, s =>
    match evalCore get a s with
    | none => none
    | some (va, s1) =>
      match evalCore get b s1 with
      | none => none
      | some (vb, s2) => (pyArith '-' va vb).map (fun v => (v, s2))
  | Expr.mul a b, s =>
    match evalCore get a s with
    | none => none
    | some (va, s1) =>
      match evalCore get b s1 with
      | none => none
      | some (vb, s2) => (pyArith '*' va vb).map (fun v => (v, s2))
  | Expr.div _ _, _ => none
  | Expr.cmp c a b, s =>
    match evalCore get a s with
    | none => none
    | some (va, s1) =>
      match evalCore get b s1 with
      | none => none
      | some (vb, s2) =>
        (pyCompare c va vb).map
          (fun r => (PyVal.pint (if r then 1 else 0), s2))

/-- The fuelled expression evaluator: each nested `get_value` of a stored
code string costs one fuel level. -/
def evalE : Nat → Expr → Stack → Option (PyVal × Stack)
  | 0, _, _ => none
  | fuel + 1, e, s => evalCore (fun v t => stackGetP (evalE fuel) t v) e s

/-- `RuntimeStack.get_value` at a given recursion budget. -/
def stackGet (fuel : Nat) (s : Stack) (name : Str) : Option (PyVal × Stack) :=
  stackGetP (evalE fuel) s name

/-! ## Layer 1b: value writes (`set_value`)

`assign_variable` passes `str(eval(expr))` — the Python source text of a
computed value — while `declare_function` passes a `Function` object
directly.  `SetVal` distinguishes the two, because both
`RuntimeStack.set_value` (static path) and `ActivatationRecord.set_value`
apply `eval` to string inputs: the text of an int or of `None` round-trips,
while `str` of a `Function` renders as `Function()`, whose evaluation calls
the constructor with no arguments and raises. -/

inductive SetVal
  | fromStr (v : PyVal)
  | fromObj (v : PyVal)
deriving Repr

/-- The unconditional `eval(value)` on the static path of
`RuntimeStack.set_value`: evaluating a non-string object is itself a
TypeError. -/
def svOuterEval : SetVal → Option PyVal
  | SetVal.fromStr (PyVal.pint n) => some (PyVal.pint n)
  | SetVal.fromStr PyVal.pnone => some PyVal.pnone
  | SetVal.fromStr _ => none
  | SetVal.fromObj _ => none

/-- The guarded `eval(value) if isinstance(value, str) else value` inside
`ActivatationRecord.set_value`'s `assign()`. -/
def svRecordVal : SetVal → Option PyVal
  | SetVal.fromStr (PyVal.pint n) => some (PyVal.pint n)
  | SetVal.fromStr PyVal.pnone => some PyVal.pnone
  | SetVal.fromStr _ => none
  | SetVal.fromObj v => some v

/-- The declaration-order loop of `ActivatationRecord.set_value` with a
function name: stop with `False` at the function's own entry, assign and
stop with `True` at the target name. -/
def recordSetScan (rec0 : ARecord) (name fn : Str) (sv : SetVal) :
    List (Str × PyVal) → Option (Bool × ARecord)
  | [] => some (false, rec0)
  | (k, _) :: tl =>
    if k = fn then some (false, rec0)
    else if k = name then
      (svRecordVal sv).map (fun v =>
        (true, { rec0 with entries := dictSet rec0.entries name v }))
    else recordSetScan rec0 name fn sv tl

/-- `ActivatationRecord.set_value` (runtime.py 65-88). -/
def recordSet (rec0 : ARecord) (name : Str) (sv : SetVal) (fname : Option Str) :
    Option (Bool × ARecord) :=
  match fname with
  | some fn => recordSetScan rec0 name fn sv rec0.entries
  | none =>
    if (dictFind rec0.entries name).isSome then
      (svRecordVal sv).map (fun v =>
        (true, { rec0 with entries := dictSet rec0.entries name v }))
    else some (false, rec0)

/-- One assignment loop of `RuntimeStack.set_value`: try the records at the
given indices in order; `mk` builds the value actually handed to the record
(`eval(value)` happens lazily, once per executed iteration, on the static
path). -/
def setRecords (s : Stack) (name : Str) (mk : Unit → Option SetVal)
    (fname : Option Str) : List Int → Option (Bool × Stack)
  | [] => some (false, s)
  | i :: tl =>
    match mk () with
    | none => none
    | some sv =>
      match pyGet s.records i with
      | none => none
      | some rec0 =>
        match recordSet rec0 name sv fname with
        | none => none
        | some (b, rec1) =>
          if b then
            match pySet s.records i rec1 with
            | none => none
            | some rs => some (true, { s with records := rs })
          else setRecords s name mk fname tl

/-- `RuntimeStack.set_value` (runtime.py 206-228). -/
def stackSet (s : Stack) (name : Str) (sv : SetVal) : Option (Bool × Stack) :=
  if !s.funcStack.isEmpty && s.typing = false then
    match s.funcStack with
    | [] => none
    | (ri, sindex, fn) :: _ =>
      match setRecords s name (fun _ => (svOuterEval sv).map SetVal.fromObj) none
          (intRangeDown ((s.records.length : Int) - 1) (sindex - 1)) with
      | none => none
      | some (b, s1) =>
        if b then some (true, s1)
        else
          match ri with
          | RIdx.tup _ _ _ => none
          | RIdx.int r =>
            setRecords s1 name (fun _ => (svOuterEval sv).map SetVal.fromObj)
              (some fn) (intRangeDown r (-1))
  else
    setRecords s name (fun _ => some sv) none
      (intRangeDown ((s.records.length : Int) - 1) (-1))

/-! ## The comparison evaluation of `conditional` -/

/-- `cond_lookup` of command.py (a missing key is a KeyError). -/
def condLookup (c : Str) : Option CmpOp :=
  if c = strOf "=" then some CmpOp.ceq
  else if c = strOf "==" then some CmpOp.ceq
  else if c = strOf "\\=" then some CmpOp.cne
  else if c = strOf "/=" then some CmpOp.cne
  else if c = strOf "!=" then some CmpOp.cne
  else if c = strOf ">" then some CmpOp.cgt
  else if c = strOf "<" then some CmpOp.clt
  else if c = strOf "=<" then some CmpOp.cle
  else if c = strOf "<=" then some CmpOp.cle
  else if c = strOf ">=" then some CmpOp.cge
  else if c = strOf "=>" then some CmpOp.cge
  else none

/-! ## Layer 2: the execution engine (command.py) -/

/-- `apply_func_params` (command.py 131-145): bind each parameter from the
corresponding argument, deferring the translated text under CBNAME, CBNEED
and CBR and evaluating it immediately otherwise.  A missing argument is an
IndexError. -/
def applyParams (fuel : Nat) (ct : CallType) (params : List Str)
    (args : List Str) (i : Nat) (entries : List (Str × PyVal)) (s : Stack) :
    Option (List (Str × PyVal) × Stack) :=
  match params with
  | [] => some (entries, s)
  | p :: ps =>
    match args.get? i with
    | none => none
    | some arg =>
      if ct = CallType.CBNAME || ct = CallType.CBNEED || ct = CallType.CBR then
        applyParams fuel ct ps args (i + 1)
          (dictSet entries p (PyVal.pdefer (elemsOf arg))) s
      else
        match parseElems (elemsOf arg) with
        | none => none
        | some e =>
          match evalE fuel e s with
          | none => none
          | some (v, s1) => applyParams fuel ct ps args (i + 1) (dictSet entries p v) s1

/-- The argument check of `value_result` (command.py 98-115).  For every
positional parameter whose argument is not numeric, the source calls
`func_record.get_value(param)` — with the required `name` argument missing —
so that call raises a TypeError; numeric arguments are skipped. -/
def valueResultLoop (params : List Str) (args : List Str) (i : Nat) : Option Unit :=
  match params with
  | [] => some ()
  | _ :: ps =>
    match args.get? i with
    | none => none
    | some arg =>
      if isNumericStr arg then valueResultLoop ps args (i + 1)
      else none

/-- `value_result` itself: look up the function, pop the call frame and the
function's record, run the per-parameter copy-back loop, then push the
record back and re-push a call entry whose first component is the whole
popped tuple. -/
def valueResultExec (fuel : Nat) (name : Str) (args : List Str) (s : Stack) :
    Option Stack :=
  match stackGet fuel s name with
  | none => none
  | some (fv, s1) =>
    match fv with
    | PyVal.pfunc f =>
      match s1.funcStack with
      | [] => none
      | top :: fsTl =>
        match s1.records.getLast? with
        | none => none
        | some frec =>
          let rest := s1.records.dropLast
          match valueResultLoop f.params args 0 with
          | none => none
          | some _ =>
            let recs := rest ++ [frec]
            some { s1 with
              records := recs,
              funcStack :=
                (RIdx.tup top.1 top.2.1 top.2.2, (recs.length : Int) - 1, f.name)
                  :: fsTl }
    | _ => none

/-- Execute `ccount` commands starting at index `i` of the flat command
list, as the inner loop of `execute_program` does. -/
def execRunP (step : Cmd → Stack → Option Stack) (cmds : List Cmd) :
    Nat → Nat → Stack → Option Stack
  | 0, _, s => some s
  | n + 1, i, s =>
    match cmds.get? i with
    | none => none
    | some c =>
      match step c s with
      | none => none
      | some s1 => execRunP step cmds n (i + 1) s1

/-- The outer loop of `execute_program` over the line data (the trace
printing is omitted: it never touches the stack). -/
def execLinesP (step : Cmd → Stack → Option Stack) (cmds : List Cmd) :
    List (Int × Int × Int) → Nat → Stack → Option Stack
  | [], _, s => some s
  | (_, ccount, _) :: tl, i, s =>
    match execRunP step cmds ccount.toNat i s with
    | none => none
    | some s1 => execLinesP step cmds tl (i + ccount.toNat) s1

/-- `Command.apply` (command.py 204-231), with one fuel level consumed by
each recursive descent into a function body or conditional branch. -/
def execCmd : Nat → CallType → Cmd → Stack → Option Stack
  | _, ct, Cmd.scopeNew, s =>
    some { s with records := s.records ++ [{ entries := [], calltype := ct }] }
  | _, _, Cmd.scopeDel isFunc, s =>
    let afterFunc : Option Stack :=
      if isFunc then
        match s.funcStack with
        | [] => none
        | _ :: tl => some { s with funcStack := tl }
      else some s
    match afterFunc with
    | none => none
    | some s1 =>
      match s1.records.getLast? with
      | none => none
      | some _ => some { s1 with records := s1.records.dropLast }
  | _, _, Cmd.declareVar name, s =>
    match s.records.getLast? with
    | none => none
    | some rec0 =>
      some { s with records :=
        s.records.dropLast ++ [{ rec0 with entries := dictSet rec0.entries name PyVal.pnone }] }
  | _, _, Cmd.declareFunc name bc bl ps, s =>
    match s.records.getLast? with
    | none => none
    | some rec0 =>
      let s1 : Stack := { s with records :=
        s.records.dropLast ++ [{ rec0 with entries := dictSet rec0.entries name PyVal.pnone }] }
      let f : Fn := { name := name, bodyCmds := bc, bodyLines := bl, params := ps,
                      rindex := (s1.records.length : Int) - 1 }
      match stackSet s1 name (SetVal.fromObj (PyVal.pfunc f)) with
      | none => none
      | some (_, s2) => some s2
  | fuel, _, Cmd.assignVar name value, s =>
    match parseElems (elemsOf value) with
    | none => none
    | some e =>
      match evalE fuel e s with
      | none => none
      | some (v, s1) =>
        match stackSet s1 name (SetVal.fromStr v) with
        | none => none
        | some (_, s2) => some s2
  | fuel, _, Cmd.retCmd value, s =>
    match parseElems (elemsOf value) with
    | none => none
    | some e =>
      match evalE fuel e s with
      | none => none
      | some (v, s1) => some { s1 with ret := v }
  | _, _, Cmd.storeFuncRet uuid, s =>
    some { s with funcReturns := dictSet s.funcReturns uuid s.ret, ret := PyVal.pnone }
  | fuel, ct, Cmd.valueResult name args, s =>
    if ct = CallType.CBVR then valueResultExec fuel name args s else some s
  | fuel, ct, Cmd.funcCall fname args, s =>
    match fuel with
    | 0 => none
    | fuel' + 1 =>
      match stackGet fuel' s fname with
      | none => none
      | some (fv, s1) =>
        match fv with
        | PyVal.pfunc f =>
          match applyParams fuel' ct f.params args 0 [] s1 with
          | none => none
          | some (entries, s2) =>
            let recs := s2.records ++ [{ entries := entries, calltype := ct }]
            let s3 : Stack := { s2 with
              records := recs,
              funcStack := (RIdx.int f.rindex, (recs.length : Int) - 1, fname)
                :: s2.funcStack }
            execLinesP (fun c t => execCmd fuel' ct c t) f.bodyCmds f.bodyLines 0 s3
        | _ => none
  | fuel, ct, Cmd.condCmd l c r ifc ifl elc ell, s =>
    match fuel with
    | 0 => none
    | fuel' + 1 =>
      match condLookup c with
      | none => none
      | some op =>
        match parseElems (elemsOf l ++ [Elem.cmpE op] ++ elemsOf r) with
        | none => none
        | some e =>
          match evalE fuel' e s with
          | none => none
          | some (v, s2) =>
            let s3 : Stack := { s2 with
              records := s2.records ++ [{ entries := [], calltype := ct }] }
            if pyTruthy v then execLinesP (fun c t => execCmd fuel' ct c t) ifc ifl 0 s3
            else execLinesP (fun c t => execCmd fuel' ct c t) elc ell 0 s3

/-- `execute_program` (command.py 248-268). -/
def execProg (fuel : Nat) (ct : CallType) (cmds : List Cmd)
    (lineData : List (Int × Int × Int)) (s : Stack) : Option Stack :=
  execLinesP (fun c t => execCmd fuel ct c t) cmds lineData 0 s

/-! ## The expression analyzer (collect_func_calls, parse.py 16-63) -/

/-- One recorded function call: captured text, result token, start offset,
end offset. -/
structure FCall where
  scall : Str
  uuid : Str
  nIdx : Nat
  mIdx : Nat
deriving DecidableEq, Repr

/-- Fresh result tokens.  `uuid4` guarantees global uniqueness; here token
`k` is the letter `u` followed by `k` repetitions of `x`, which is unique,
quote-free and parenthesis-free. -/
def uuidStr (k : Nat) : Str := 'u' :: List.replicate k 'x'

/-- Wrap a token in double quotes, as the replacement text does. -/
def quoteStr (u : Str) : Str := '"' :: (u ++ ['"'])

/-- The parenthesis-balancing scan: starting just after the opening
parenthesis with depth 1, find the index one past the matching close
(running off the end is an IndexError). -/
def parenScan (value : Str) : Nat → Nat → Nat → Option Nat
  | 0, j, _ => some j
  | _, j, 0 => some j
  | fuel + 1, j, parens + 1 =>
    match value.get? j with
    | none => none
    | some c =>
      let p' := if c = '(' then parens + 2 else if c = ')' then parens else parens + 1
      parenScan value fuel (j + 1) p'

/-- The scanning loop of `collect_func_calls`: at each position try to match
`name+\s*\(`, extract the balanced-parenthesis span, record it with a fresh
token, and jump past the matched prefix. -/
def cfcScan (value : Str) : Nat → Nat → Nat → List FCall → Option (List FCall × Nat)
  | 0, _, k, acc => some (acc, k)
  | fuel + 1, i, k, acc =>
    if i < value.length then
      match reMatch nameLParenRe (value.drop i) with
      | some (g0, _) =>
        match parenScan value (value.length + 1) (i + g0.length) 1 with
        | none => none
        | some j =>
          cfcScan value fuel (i + g0.length) (k + 1)
            (acc ++ [{ scall := (value.drop i).take (j - i), uuid := uuidStr k,
                       nIdx := i, mIdx := j }])
      | none => cfcScan value fuel (i + 1) k acc
    else some (acc, k)

/-- `overlap` of collect_func_calls: does the index fall strictly inside any
recorded span? -/
def overlapAny (calls : List FCall) (idx : Nat) : Bool :=
  calls.any (fun c => decide (c.nIdx < idx) && decide (idx < c.mIdx))

/-- Python's `str.replace(old, new, 1)`: replace the first occurrence. -/
def replaceFirst (s t r : Str) : Str :=
  if t.isPrefixOf s then r ++ s.drop t.length
  else
    match s with
    | [] => []
    | c :: tl => c :: replaceFirst tl t r

/-- The processing loop of `collect_func_calls`: in sorted order, calls whose
end falls inside no other span are replaced in the overall expression by
their quoted token, and the calls ending inside their own span are replaced
inside their captured text. -/
def cfcProcess : Nat → List FCall → Str → Nat → (Str × List FCall)
  | 0, calls, value, _ => (value, calls)
  | fuel + 1, calls, value, i =>
    match calls.get? i with
    | none => (value, calls)
    | some c =>
      if overlapAny calls c.mIdx then cfcProcess fuel calls value (i + 1)
      else
        let value' := replaceFirst value c.scall (quoteStr c.uuid)
        let ovs := calls.filter (fun o => decide (o.mIdx < c.mIdx) && decide (c.nIdx < o.mIdx))
        let scall' := ovs.foldl (fun sc o => replaceFirst sc o.scall (quoteStr o.uuid)) c.scall
        cfcProcess fuel (calls.set i { c with scall := scall' }) value' (i + 1)

/-- `collect_func_calls` with a token counter threaded through (the source
uses `uuid4`).  Returns the rewritten expression, the processed call list in
ascending end-offset order, and the next counter value. -/
def collectFuncCalls (value : Str) (k : Nat) : Option (Str × List FCall × Nat) :=
  match cfcScan value (value.length + 1) 0 k [] with
  | none => none
  | some (fcs, k') =>
    let sorted := List.insertionSort (fun a b : FCall => a.mIdx ≤ b.mIdx) fcs
    let (v', fcs') := cfcProcess (sorted.length + 1) sorted value 0
    some (v', fcs', k')

/-- `"(".join(s.split("(")[1:])`: everything after the first `(`, or the
empty string when there is none. -/
def dropThroughLParen (s : Str) : Str :=
  match s with
  | [] => []
  | '(' :: tl => tl
  | _ :: tl => dropThroughLParen tl

/-- The argument extraction of `gen_func_call_commands`: split the whole
captured text on commas, strip the head through the first parenthesis, drop
the final character of the last piece. -/
def fcallArgs (scall : Str) : List Str :=
  let raw := reSplit commaRe scall
  let a1 :=
    match raw with
    | [] => []
    | a :: tl => dropThroughLParen a :: tl
  match a1.getLast? with
  | none => a1
  | some last => a1.dropLast ++ [last.dropLast]

/-- The callee name: the first piece of splitting the captured text on
`\s*\(`. -/
def fcallName (scall : Str) : Str :=
  match reSplit wsLParenRe scall with
  | [] => []
  | a :: _ => a

/-- `gen_func_call_commands` (parse.py 66-85). -/
def genFCC (cs : List FCall) : List Cmd :=
  cs.flatMap (fun c =>
    [Cmd.funcCall (fcallName c.scall) (fcallArgs c.scall),
     Cmd.storeFuncRet c.uuid,
     Cmd.valueResult (fcallName c.scall) (fcallArgs c.scall),
     Cmd.scopeDel true])

/-! ## The statement parser (parse_input, parse.py 108-201) -/

/-- `obtain_scoped_lines` (parse.py 88-105): collect lines by brace-depth
counting; returns the index of the closing line and the collected lines
(including that closing line). -/
def obtainScoped (input : List Str) : Nat → Nat → Nat → List Str →
    Option (Nat × List Str)
  | 0, i, _, acc => some (i, acc)
  | _, i, 0, acc => some (i, acc)
  | fuel + 1, i, scount + 1, acc =>
    match input.get? (i + 1) with
    | none => none
    | some l =>
      let sc' :=
        if l.getLast? = some '\x7b' then scount + 2
        else if l.getLast? = some '\x7d' then scount
        else scount + 1
      obtainScoped input fuel (i + 1) sc' (acc ++ [l])

/-- Extract the second whitespace-separated word of the `name+\s+name+`
prefix of a matched line (the declared name, with the cosmetic type word
dropped). -/
def secondWord (smatch : Str) : Option Str :=
  match reMatch declRe smatch with
  | none => none
  | some (g0, _) => (reSplit wsSplitRe g0).get? 1

/-- The parameter-name extraction of the function-declaration branch:
`findall` the parenthesised group, strip the parentheses, split on commas,
and take the second word of each piece (an IndexError for an empty piece). -/
def extractParams (smatch : Str) : Option (List Str) :=
  match reFindFirstG0 (Re.seq (Re.lit (strOf "(")) (Re.seq paramsRe (Re.lit (strOf ")"))))
      smatch with
  | none => none
  | some ps =>
    let inner := (ps.drop 1).dropLast
    (reSplit commaRe inner).mapM (fun piece => (reSplit wsSplitRe piece).get? 1)

/-- `parse_input`, fuelled: `input` is the line list of the current block,
`i` the loop index, `cmds`/`clines` the accumulators, `lineno` the base line
number, `k` the token counter.  Any line matching none of the recognised
shapes falls through every branch and contributes nothing but its line-data
entry. -/
def parseLoopF : Nat → List Str → Nat → List Cmd → List (Int × Int × Int) →
    Int → Nat → Option (List Cmd × List (Int × Int × Int) × Nat)
  | 0, _, _, _, _, _, _ => none
  | fuel + 1, input, i, cmds, clines, lineno, k =>
    match input.get? i with
    | none => some (cmds, clines, k)
    | some line =>
      let ccount0 := cmds.length
      let finish := fun (cmds' : List Cmd) (i' : Nat) (k' : Nat) =>
        parseLoopF fuel input (i' + 1) cmds'
          (clines ++ [((cmds'.length : Int) - 1, (cmds'.length : Int) - (ccount0 : Int),
            lineno + (i : Int))]) lineno k'
      if line = strOf "\x7b" then
        finish (cmds ++ [Cmd.scopeNew]) i k
      else if line = strOf "\x7d" then
        finish (cmds ++ [Cmd.scopeDel false]) i k
      else
        match reMatch funcDeclRe line with
        | some (smatch, _) =>
          match secondWord smatch with
          | none => none
          | some fname =>
            match extractParams smatch with
            | none => none
            | some fparams =>
              match obtainScoped input (input.length + 1) i 1 [] with
              | none => none
              | some (i', funcLines) =>
                match parseLoopF fuel funcLines.dropLast 0 [] []
                    (lineno + (i : Int) + 1) k with
                | none => none
                | some (bc, bl, k') =>
                  finish (cmds ++ [Cmd.declareFunc fname bc bl fparams]) i' k'
        | none =>
        match reMatch returnRe line with
        | some (smatch, _) =>
          match ((reSplit returnSplitRe smatch).filter (fun p => !p.isEmpty)).get? 0 with
          | none => none
          | some value =>
            match collectFuncCalls value k with
            | none => none
            | some (value', fcs, k') =>
              finish (cmds ++ genFCC fcs ++ [Cmd.retCmd value']) i k'
        | none =>
        match reMatch ifRe line with
        | some (smatch, _) =>
          match reMatch (Re.seq (Re.lit (strOf "if")) wsP) smatch with
          | none => none
          | some (ifg0, _) =>
            let submatch := (smatch.drop ifg0.length).dropLast
            match reSplit condSplitRe submatch with
            | [a, b] =>
              let left := stripStr a
              let right := stripStr b
              match reFindFirstG0 condRe submatch with
              | none => none
              | some condition =>
                match obtainScoped input (input.length + 1) i 1 [] with
                | none => none
                | some (i2, ifLines) =>
                  match input.get? (i2 + 1) with
                  | none => none
                  | some nextLine =>
                    match
                      (if (strOf "else").isPrefixOf nextLine then
                        obtainScoped input (input.length + 1) (i2 + 1) 1 []
                      else some (i2, [])) with
                    | none => none
                    | some (i3, elseLines) =>
                      match parseLoopF fuel ifLines 0 [] [] (lineno + (i : Int) + 1) k with
                      | none => none
                      | some (ic, il, k1) =>
                        match parseLoopF fuel elseLines 0 [] []
                            (lineno + (i : Int) + (ifLines.length : Int) + 2) k1 with
                        | none => none
                        | some (ec, el, k2) =>
                          finish (cmds ++ [Cmd.condCmd left condition right ic il ec el]) i3 k2
            | _ => none
        | none =>
        match reMatch declAssignRe line with
        | some (smatch, _) =>
          match secondWord smatch with
          | none => none
          | some vname =>
            match (reSplit assignEqRe smatch).get? 1 with
            | none => none
            | some value =>
              match collectFuncCalls value k with
              | none => none
              | some (value', fcs, k') =>
                finish (cmds ++ genFCC fcs ++
                  [Cmd.declareVar vname, Cmd.assignVar vname value']) i k'
        | none =>
        match reMatch declRe line with
        | some (smatch, _) =>
          match secondWord smatch with
          | none => none
          | some vname => finish (cmds ++ [Cmd.declareVar vname]) i k
        | none =>
        match reMatch assignRe line with
        | some (smatch, _) =>
          match reSplit assignEqRe smatch with
          | [vname, value] =>
            match collectFuncCalls value k with
            | none => none
            | some (value', fcs, k') =>
              finish (cmds ++ genFCC fcs ++ [Cmd.assignVar vname value']) i k'
          | _ => none
        | none => finish cmds i k

/-- `parse_input` on a whole program: ample fuel, zero base line number and
token counter. -/
def parseInput (input : List Str) : Option (List Cmd × List (Int × Int × Int)) :=
  (parseLoopF ((input.length + 2) * (input.length + 2)) input 0 [] [] 0 0).map
    (fun r => (r.1, r.2.1))

/-- `main` of main.py without the front end: parse the lines and execute the
commands on an initial stack with the given scoping flag and calltype. -/
def runProgram (fuel : Nat) (tp : Bool) (ct : CallType) (lines : List Str) :
    Option Stack :=
  match parseInput lines with
  | none => none
  | some (cmds, ld) => execProg fuel ct cmds ld (initStack tp ct)

/-! ## Observables used by the claims -/

/-- Does the ordered entry list reach the function's own entry (or the end)
before any entry for `v`?  This is the condition under which the
declaration-order scan of `ActivatationRecord.get_value` refuses to resolve
`v`. -/
def stopsBefore (fn v : Str) : List (Str × PyVal) → Bool
  | [] => true
  | (k, _) :: tl =>
    if k = fn then true else if k = v then false else stopsBefore fn v tl

/-- Record at Python index `i` exists and has an entry for `v` (an invalid
index counts as `true` so that hypotheses of the form `recHasKey … = false`
also certify the index). -/
def recHasKey (s : Stack) (i : Int) (v : Str) : Bool :=
  match pyGet s.records i with
  | none => true
  | some r => (dictFind r.entries v).isSome

/-- Record at Python index `i` exists and its declaration-order scan for `v`
stops at `fn` first. -/
def recStops (s : Stack) (i : Int) (fn v : Str) : Bool :=
  match pyGet s.records i with
  | none => false
  | some r => stopsBefore fn v r.entries

/-- The record's binding for `v` is either absent or declared-but-unset. -/
def unsetOrAbsent (r : ARecord) (v : Str) : Bool :=
  match dictFind r.entries v with
  | none => true
  | some PyVal.pnone => true
  | some _ => false

/-! ## Quoted-token bookkeeping for the analyzer's ordering invariant -/

/-- Number of double quotes in a string. -/
def countQ (s : Str) : Nat := (s.filter (fun c => decide (c = '"'))).length

/-- No double quote occurs (raw source expressions match `r_expr`, whose
class contains no quote). -/
def noQuote (s : Str) : Bool := s.all (fun c => !decide (c = '"'))

/-- The quoted tokens of a string, by sequential pairing of its quotes: the
content between the first and second quote, the third and fourth, and so on
(an unterminated final token runs to the end).  This is how the rewritten
expression texts carry call-result references.  The first argument says
whether the scan is currently inside a quoted token, the second accumulates
the current token's characters in reverse. -/
def extractToksGo : Bool → Str → Str → List Str
  | false, _, [] => []
  | true, acc, [] => [acc.reverse]
  | false, acc, c :: tl =>
    if c = '"' then extractToksGo true [] tl else extractToksGo false acc tl
  | true, acc, c :: tl =>
    if c = '"' then acc.reverse :: extractToksGo false [] tl
    else extractToksGo true (c :: acc) tl

def extractToks (s : Str) : List Str := extractToksGo false [] s

/-- The characters lying strictly inside quoted regions, scanning with the
given starting in-quotes flag. -/
def insQ : Bool → Str → Str
  | _, [] => []
  | q, c :: tl =>
    if c = '"' then insQ (!q) tl
    else if q then c :: insQ q tl else insQ q tl

/-- The shape every rewritten expression text keeps: quotes are balanced and
every character inside a quoted region belongs to a result token (here the
letters of `uuidStr`). -/
def QInv (s : Str) : Prop :=
  countQ s % 2 = 0 ∧ ∀ c ∈ insQ false s, c = 'u' ∨ c = 'x'

/-- A regular expression all of whose character classes and literals lie
within `P`: every character such a pattern consumes satisfies `P`. -/
def reChars (P : Char → Prop) : Re → Prop
  | Re.eps => True
  | Re.cls p => ∀ c, p c = true → P c
  | Re.lit cs => ∀ c ∈ cs, P c
  | Re.seq a b => reChars P a ∧ reChars P b
  | Re.alt a b => reChars P a ∧ reChars P b
  | Re.opt a => reChars P a
  | Re.rep0 a => reChars P a
  | Re.rep1 a => reChars P a

instance : IsTotal FCall (fun a b : FCall => a.mIdx ≤ b.mIdx) :=
  ⟨fun a b => Nat.le_total a.mIdx b.mIdx⟩

instance : IsTrans FCall (fun a b : FCall => a.mIdx ≤ b.mIdx) :=
  ⟨fun _ _ _ h1 h2 => Nat.le_trans h1 h2⟩

/-- The call-result tokens a command's expression text refers to:
the quoted tokens of a call's argument strings, or of a return/assignment
value; other commands evaluate no rewritten expression. -/
def cmdTokenReads : Cmd → List Str
  | Cmd.funcCall _ args => args.flatMap extractToks
  | Cmd.assignVar _ v => extractToks v
  | Cmd.retCmd v => extractToks v
  | _ => []

/-- The tokens a command stores into `func_returns`. -/
def storesOf : Cmd → List Str
  | Cmd.storeFuncRet uuid => [uuid]
  | _ => []

/-- The read-before-write safety check over a command sequence: simulate the
set of stored result tokens and demand that every token a command's
expression text reads is already stored. -/
def readSafeGo : List Str → List Cmd → Bool
  | _, [] => true
  | st, c :: tl =>
    (cmdTokenReads c).all (fun t => st.contains t) && readSafeGo (st ++ storesOf c) tl

/-- An evaluator that preserves the record count. -/
def EvLen (ev : Evaluator) : Prop :=
  ∀ e s v s', ev e s = some (v, s') → s'.records.length = s.records.length

/-! # Theorems -/

/-- Claim C1 (code bug): the claim says that under CBVR the program
`int inc(int n) { n = n + 1 }`, `int a = 1`, `inc(a)` ends with `a`
resolving to 2, the parameter's final value being copied back, while CBV
leaves `a` at 1.  The code cannot produce this: (a)/(b) with the mandatory
enclosing scope opened, the bare call line `inc(a)` matches no statement
shape, so no call happens and `a` stays 1 under CBVR just as under CBV;
(c) the three statements as written, from the initial record-less stack,
abort at the first declaration (IndexError on `records[-1]`); (d) even
forcing the call through an initializer (`int r = inc(a)`), CBVR aborts,
because `value_result` invokes `ActivatationRecord.get_value` without its
required `name` argument (a TypeError) for every non-numeric argument. -/
theorem claim_C1 :
    ((runProgram 20 true CallType.CBVR
        [strOf "\x7b", strOf "int inc(int n) \x7b", strOf "n = n + 1", strOf "\x7d",
         strOf "int a = 1", strOf "inc(a)"]).bind
      (fun s => (stackGet 10 s (strOf "a")).map (fun p => p.1))) =
        some (PyVal.pint 1) ∧
    ((runProgram 20 true CallType.CBV
        [strOf "\x7b", strOf "int inc(int n) \x7b", strOf "n = n + 1", strOf "\x7d",
         strOf "int a = 1", strOf "inc(a)"]).bind
      (fun s => (stackGet 10 s (strOf "a")).map (fun p => p.1))) =
        some (PyVal.pint 1) ∧
    runProgram 20 true CallType.CBVR
      [strOf "int inc(int n) \x7b", strOf "n = n + 1", strOf "\x7d",
       strOf "int a = 1", strOf "inc(a)"] = none ∧
    runProgram 20 true CallType.CBVR
      [strOf "\x7b", strOf "int inc(int n) \x7b", strOf "n = n + 1", strOf "\x7d",
       strOf "int a = 1", strOf "int r = inc(a)"] = none := by
  exact ⟨rfl, rfl, rfl, rfl⟩

/-- Claim C4 (code bug): the claim says every conditional line with an
operator from `{=, ==, !=, \=, /=, <, >, <=, =<, >=, =>}` is accepted and
normalised to six comparison kinds.  The normalisation table exists — the
runtime's `cond_lookup` maps all eleven spellings onto the six kinds (first
conjunct) — but the parser cannot deliver most of them: `r_cond` lists the
single-character alternatives before `>=`/`<=`, and `re.split` on
`\s*r_cond\s*` therefore cuts `x == 3` (and `x <= 3`, `x >= 3`) into three
pieces, so the two-name unpacking raises a ValueError and parsing aborts
(second and third conjuncts); `if x \= 3 {` matches the plain declaration
shape instead and turns into a variable declaration (fourth conjunct); only
`=`, `<`, `>` and `!=` survive (fifth conjunct). -/
theorem claim_C4 :
    (condLookup (strOf "=") = some CmpOp.ceq ∧
     condLookup (strOf "==") = some CmpOp.ceq ∧
     condLookup (strOf "!=") = some CmpOp.cne ∧
     condLookup (strOf "\\=") = some CmpOp.cne ∧
     condLookup (strOf "/=") = some CmpOp.cne ∧
     condLookup (strOf "<") = some CmpOp.clt ∧
     condLookup (strOf ">") = some CmpOp.cgt ∧
     condLookup (strOf "<=") = some CmpOp.cle ∧
     condLookup (strOf "=<") = some CmpOp.cle ∧
     condLookup (strOf ">=") = some CmpOp.cge ∧
     condLookup (strOf "=>") = some CmpOp.cge) ∧
    parseInput [strOf "if x == 3 \x7b", strOf "\x7d", strOf "int y = 2"] = none ∧
    parseInput [strOf "if x <= 3 \x7b", strOf "\x7d", strOf "int y = 2"] = none ∧
    (parseInput [strOf "if x \\= 3 \x7b", strOf "\x7d", strOf "int y = 2"]).map
      (fun p => p.1.head?) = some (some (Cmd.declareVar (strOf "x"))) ∧
    (parseInput [strOf "if x = 3 \x7b", strOf "\x7d", strOf "int y = 2"]).isSome = true ∧
    (parseInput [strOf "if x != 3 \x7b", strOf "\x7d", strOf "int y = 2"]).isSome = true := by
  exact ⟨⟨rfl, rfl, rfl, rfl, rfl, rfl, rfl, rfl, rfl, rfl, rfl⟩, rfl, rfl, rfl, rfl, rfl⟩

/-- Claim C5, counterexample: the line `(x)` matches none of the recognised
statement shapes, yet parsing succeeds — no error is reported and no
execution is prevented — producing zero commands for the line and a
line-data entry `(-1, 0, 0)`. -/
theorem claim_C5_counterexample :
    parseInput [strOf "(x)"] = some ([], [((-1 : Int), 0, 0)]) := by
  exact rfl

/-- Claim C5, amended: a source line matching none of the recognised
statement shapes is silently skipped — the parser falls through every
branch, appends no command, records a line-data entry with command count
zero, and continues with the next line. -/
theorem claim_C5_amended (fuel : Nat) (input : List Str) (i : Nat)
    (cmds : List Cmd) (clines : List (Int × Int × Int)) (lineno : Int) (k : Nat)
    (line : Str)
    (hline : input.get? i = some line)
    (h1 : line ≠ strOf "\x7b")
    (h2 : line ≠ strOf "\x7d")
    (h3 : reMatch funcDeclRe line = none)
    (h4 : reMatch returnRe line = none)
    (h5 : reMatch ifRe line = none)
    (h6 : reMatch declAssignRe line = none)
    (h7 : reMatch declRe line = none)
    (h8 : reMatch assignRe line = none) :
    parseLoopF (fuel + 1) input i cmds clines lineno k =
      parseLoopF fuel input (i + 1) cmds
        (clines ++ [((cmds.length : Int) - 1, 0, lineno + (i : Int))]) lineno k := by
  simp only [parseLoopF, hline, h3, h4, h5, h6, h7, h8, if_neg h1, if_neg h2]
  simp

/-- Witness for the amended C5 at a concrete unmatched line. -/
theorem claim_C5_amended_witness :
    parseLoopF 3 [strOf "(x)"] 0 [] [] 0 0 =
      parseLoopF 2 [strOf "(x)"] 1 [] [((-1 : Int), 0, 0)] 0 0 := by
  have h := claim_C5_amended 2 [strOf "(x)"] 0 [] [] 0 0 (strOf "(x)")
    rfl (by decide) (by decide) rfl rfl rfl rfl rfl rfl
  simpa using h

/-- Claim C6 (corrected), counterexample: the three-line program
`int x = 3`, `int y = 4`, `int z = x + y`, executed from the initial
runtime state (whose record list is empty), does not terminate normally:
the very first `DeclareVar` indexes `records[-1]` of an empty list and
aborts, under both scoping modes. -/
theorem claim_C6_counterexample :
    runProgram 20 true CallType.CBV
      [strOf "int x = 3", strOf "int y = 4", strOf "int z = x + y"] = none ∧
    runProgram 20 false CallType.CBV
      [strOf "int x = 3", strOf "int y = 4", strOf "int z = x + y"] = none := by
  exact ⟨rfl, rfl⟩

/-! ### Lemmas about the name-resolution scans -/

/-- A declaration-order scan over entries in which the function's entry (or
the end) comes before any entry for `name` yields the no-value sentinel. -/
theorem recordGetScan_stops (ev : Evaluator) (s : Stack) (i : Int)
    (name fn : Str) (es : List (Str × PyVal))
    (h : stopsBefore fn name es = true) :
    recordGetScan ev s i name fn es = some (PyVal.pnone, s) := by
  induction es with
  | nil => rfl
  | cons kv tl ih =>
    obtain ⟨k, v⟩ := kv
    simp only [stopsBefore] at h
    simp only [recordGetScan]
    by_cases hk : k = fn
    · simp [hk]
    · simp only [if_neg hk] at h ⊢
      by_cases hn : k = name
      · simp [hn] at h
      · simp only [if_neg hn] at h ⊢
        exact ih h

/-- A name that is absent from an entry list makes the declaration-order
scan stop harmlessly. -/
theorem stopsBefore_of_absent (fn name : Str) (es : List (Str × PyVal))
    (h : dictFind es name = none) : stopsBefore fn name es = true := by
  induction es with
  | nil => rfl
  | cons kv tl ih =>
    obtain ⟨k, v⟩ := kv
    simp only [dictFind] at h
    by_cases hn : k = name
    · simp [hn] at h
    · simp only [if_neg hn] at h
      simp only [stopsBefore, if_neg hn]
      by_cases hk : k = fn
      · simp [hk]
      · simp only [if_neg hk]
        exact ih h

/-- A plain lookup of an absent name in one record yields the sentinel and
leaves the stack unchanged. -/
theorem recordGet_absent (ev : Evaluator) (s : Stack) (i : Int) (name : Str)
    (h : recHasKey s i name = false) :
    recordGet ev s i name none = some (PyVal.pnone, s) := by
  unfold recHasKey at h
  unfold recordGet
  cases hg : pyGet s.records i with
  | none => simp [hg] at h
  | some r =>
    simp only [hg] at h ⊢
    simp [h]

/-- A declaration-order lookup in one record that stops at the function
entry yields the sentinel and leaves the stack unchanged. -/
theorem recordGet_stops (ev : Evaluator) (s : Stack) (i : Int) (name fn : Str)
    (h : recStops s i fn name = true) :
    recordGet ev s i name (some fn) = some (PyVal.pnone, s) := by
  unfold recStops at h
  unfold recordGet
  cases hg : pyGet s.records i with
  | none => simp [hg] at h
  | some r =>
    simp only [hg] at h ⊢
    exact recordGetScan_stops ev s i name fn r.entries h

/-- A plain scan over records none of which binds the name returns the
sentinel and leaves the stack unchanged. -/
theorem scanRecords_absent (ev : Evaluator) (s : Stack) (name : Str)
    (idxs : List Int)
    (h : ∀ i ∈ idxs, recHasKey s i name = false) :
    scanRecords ev s name none idxs = some (PyVal.pnone, s) := by
  induction idxs with
  | nil => rfl
  | cons i tl ih =>
    simp only [scanRecords]
    rw [recordGet_absent ev s i name (h i (by simp))]
    simp only [pyEqB, if_pos rfl]
    exact ih (fun j hj => h j (by simp [hj]))

/-- A declaration-order scan over records each of which stops at the
function entry before the name returns the sentinel unchanged. -/
theorem scanRecords_stops (ev : Evaluator) (s : Stack) (name fn : Str)
    (idxs : List Int)
    (h : ∀ i ∈ idxs, recStops s i fn name = true) :
    scanRecords ev s name (some fn) idxs = some (PyVal.pnone, s) := by
  induction idxs with
  | nil => rfl
  | cons i tl ih =>
    simp only [scanRecords]
    rw [recordGet_stops ev s i name fn (h i (by simp))]
    simp only [pyEqB, if_pos rfl]
    exact ih (fun j hj => h j (by simp [hj]))

/-- `recHasKey = false` certifies `recStops` for any function name. -/
theorem recStops_of_no_key (s : Stack) (i : Int) (fn name : Str)
    (h : recHasKey s i name = false) : recStops s i fn name = true := by
  unfold recHasKey at h
  unfold recStops
  cases hg : pyGet s.records i with
  | none => simp [hg] at h
  | some r =>
    simp only [hg] at h ⊢
    exact stopsBefore_of_absent fn name r.entries
      (by cases hd : dictFind r.entries name with
          | none => rfl
          | some v => simp [hd] at h)

/-- An assignment loop in which no visited record binds the name reports no
write and leaves the stack unchanged (provided the per-iteration value
construction succeeds). -/
theorem setRecords_absent (s : Stack) (name : Str) (mk : Unit → Option SetVal)
    (fname : Option Str) (idxs : List Int)
    (hmk : ∀ u : Unit, (mk u).isSome = true)
    (h : ∀ i ∈ idxs, recHasKey s i name = false) :
    setRecords s name mk fname idxs = some (false, s) := by
  induction idxs with
  | nil => rfl
  | cons i tl ih =>
    simp only [setRecords]
    cases hm : mk () with
    | none =>
      have := hmk ()
      simp [hm] at this
    | some sv =>
      have hk := h i (by simp)
      unfold recHasKey at hk
      cases hg : pyGet s.records i with
      | none => simp [hg] at hk
      | some r =>
        simp only [hg] at hk ⊢
        have habs : dictFind r.entries name = none := by
          cases hd : dictFind r.entries name with
          | none => rfl
          | some v => simp [hd] at hk
        have hrs : recordSet r name sv fname = some (false, r) := by
          cases fname with
          | none => simp [recordSet, habs]
          | some fn =>
            simp only [recordSet]
            have : ∀ es : List (Str × PyVal), dictFind es name = none →
                recordSetScan r name fn sv es = some (false, r) := by
              intro es
              induction es with
              | nil => intro _; rfl
              | cons kv tl ih2 =>
                obtain ⟨k, v⟩ := kv
                intro hd
                simp only [dictFind] at hd
                by_cases hn : k = name
                · simp [hn] at hd
                · simp only [if_neg hn] at hd
                  simp only [recordSetScan, if_neg hn]
                  by_cases hf : k = fn
                  · simp [hf]
                  · simp only [if_neg hf]
                    exact ih2 hd
            exact this r.entries habs
        rw [hrs]
        exact ih (fun j hj => h j (by simp [hj]))

/-- An assignment loop that reports no write leaves the stack unchanged. -/
theorem setRecords_false_unchanged (s : Stack) (name : Str)
    (mk : Unit → Option SetVal) (fname : Option Str) (idxs : List Int)
    (s' : Stack)
    (h : setRecords s name mk fname idxs = some (false, s')) : s' = s := by
  induction idxs generalizing s with
  | nil =>
    simp only [setRecords, Option.some.injEq, Prod.mk.injEq] at h
    exact h.2.symm
  | cons i tl ih =>
    simp only [setRecords] at h
    cases hm : mk () with
    | none => simp [hm] at h
    | some sv =>
      simp only [hm] at h
      cases hg : pyGet s.records i with
      | none => simp [hg] at h
      | some r =>
        simp only [hg] at h
        cases hr : recordSet r name sv fname with
        | none => simp [hr] at h
        | some br =>
          obtain ⟨b, rec1⟩ := br
          simp only [hr] at h
          by_cases hb : b = true
          · subst hb
            simp only [if_pos rfl] at h
            cases hp : pySet s.records i rec1 with
            | none => simp [hp] at h
            | some rs => simp [hp] at h
          · simp only [if_neg hb] at h
            exact ih s h

/-- Python indexing at a valid nonnegative index is plain list indexing. -/
theorem pyGet_natIdx (l : List α) (n : Nat) (h : n < l.length) :
    pyGet l (n : Int) = l.get? n := by
  unfold pyGet pyIdx
  rw [if_pos (by omega), if_pos (by exact_mod_cast h)]
  simp

/-- Indexing past an appended prefix. -/
theorem listGetQ_append_right (A l : List α) (n : Nat) :
    (A ++ l).get? (A.length + n) = l.get? n := by
  induction A with
  | nil => simp
  | cons a tl ih =>
    simp only [List.cons_append, List.length_cons]
    rw [show tl.length + 1 + n = (tl.length + n) + 1 by omega]
    simpa using ih

/-- Setting the second-to-last slot of a two-element suffix. -/
theorem listSet_append_right2 (A : List α) (x y z : α) :
    (A ++ [x, y]).set (A.length + 1) z = A ++ [x, z] := by
  induction A with
  | nil => rfl
  | cons a tl ih =>
    show a :: (tl ++ [x, y]).set (tl.length + 1) z = a :: (tl ++ [x, z])
    rw [ih]

/-- Unfolding a descending range with lower bound `-1`. -/
theorem intRangeDown_cons (a : Int) (h : 0 ≤ a) :
    intRangeDown a (-1) = a :: intRangeDown (a - 1) (-1) := by
  unfold intRangeDown
  rw [show (a - -1).toNat = (a - 1 - -1).toNat + 1 by omega]
  rfl

/-- Members of a descending range with lower bound `-1`. -/
theorem mem_intRangeDown (a i : Int) (h : i ∈ intRangeDown a (-1)) :
    0 ≤ i ∧ i ≤ a := by
  unfold intRangeDown at h
  have : ∀ (n : Nat) (x : Int), i ∈ intRangeDownGo n x → x - n < i ∧ i ≤ x := by
    intro n
    induction n with
    | zero => intro x hx; simp [intRangeDownGo] at hx
    | succ m ih =>
      intro x hx
      simp only [intRangeDownGo, List.mem_cons] at hx
      cases hx with
      | inl he => subst he; omega
      | inr hm =>
        have := ih (x - 1) hm
        omega
  have h2 := this _ _ h
  omega

/-- A valid index retrieves a member of the list. -/
theorem pyGet_valid (l : List α) (i : Int) (h0 : 0 ≤ i) (h1 : i < l.length) :
    ∃ x, pyGet l i = some x ∧ x ∈ l := by
  have hidx : pyGet l i = l.get? i.toNat := by
    unfold pyGet pyIdx
    rw [if_pos h0, if_pos h1]
    rfl
  rw [hidx]
  cases hg : l.get? i.toNat with
  | none =>
    have := List.get?_eq_none.mp hg
    omega
  | some x =>
    exact ⟨x, rfl, List.get?_mem hg⟩

/-- A record whose binding for the name is declared-but-unset yields the
sentinel and leaves the stack unchanged. -/
theorem recordGet_unset (ev : Evaluator) (s : Stack) (i : Int) (name : Str)
    (r : ARecord) (hg : pyGet s.records i = some r)
    (hd : dictFind r.entries name = some PyVal.pnone) :
    recordGet ev s i name none = some (PyVal.pnone, s) := by
  unfold recordGet
  rw [hg]
  simp only [hd, Option.isSome_some, if_pos rfl]
  unfold recordObtain
  rw [hg]
  simp [hd]

/-- A record whose binding holds a concrete int yields it unchanged. -/
theorem recordGet_value (ev : Evaluator) (s : Stack) (i : Int) (name : Str)
    (r : ARecord) (v : Int) (hg : pyGet s.records i = some r)
    (hd : dictFind r.entries name = some (PyVal.pint v)) :
    recordGet ev s i name none = some (PyVal.pint v, s) := by
  unfold recordGet
  rw [hg]
  simp only [hd, Option.isSome_some, if_pos rfl]
  unfold recordObtain
  rw [hg]
  simp [hd]

/-- A record with the name unset or absent yields the sentinel unchanged. -/
theorem recordGet_unsetOrAbsent (ev : Evaluator) (s : Stack) (i : Int)
    (name : Str) (r : ARecord) (hg : pyGet s.records i = some r)
    (hu : unsetOrAbsent r name = true) :
    recordGet ev s i name none = some (PyVal.pnone, s) := by
  unfold unsetOrAbsent at hu
  cases hd : dictFind r.entries name with
  | none =>
    exact recordGet_absent ev s i name (by unfold recHasKey; rw [hg]; simp [hd])
  | some v =>
    rw [hd] at hu
    cases v with
    | pnone => exact recordGet_unset ev s i name r hg hd
    | pint n => simp at hu
    | pdefer es => simp at hu
    | pfunc f => simp at hu

/-- A plain scan over records all holding the name unset or absent yields
the sentinel unchanged. -/
theorem scanRecords_unset (ev : Evaluator) (s : Stack) (name : Str)
    (idxs : List Int)
    (h : ∀ i ∈ idxs, ∃ r, pyGet s.records i = some r ∧ unsetOrAbsent r name = true) :
    scanRecords ev s name none idxs = some (PyVal.pnone, s) := by
  induction idxs with
  | nil => rfl
  | cons i tl ih =>
    obtain ⟨r, hg, hu⟩ := h i (by simp)
    simp only [scanRecords]
    rw [recordGet_unsetOrAbsent ev s i name r hg hu]
    simp only [pyEqB, Bool.not_true, if_pos rfl]
    exact ih (fun j hj => h j (by simp [hj]))

/-- Claim C6, amended: the same three declarations executed inside an opened
scope (a preceding `{` line provides the activation record the initial
stack lacks) terminate normally under CBV with either scoping flag, and
afterwards `z` resolves to 7. -/
theorem claim_C6_amended :
    ((runProgram 20 true CallType.CBV
        [strOf "\x7b", strOf "int x = 3", strOf "int y = 4", strOf "int z = x + y"]).bind
      (fun s => (stackGet 10 s (strOf "z")).map (fun p => p.1))) =
        some (PyVal.pint 7) ∧
    ((runProgram 20 false CallType.CBV
        [strOf "\x7b", strOf "int x = 3", strOf "int y = 4", strOf "int z = x + y"]).bind
      (fun s => (stackGet 10 s (strOf "z")).map (fun p => p.1))) =
        some (PyVal.pint 7) := by
  exact ⟨rfl, rfl⟩

/-- Claim C2 (confirmed): under static scoping — the `RuntimeStack.get_value`
path taken while a call is active and the typing flag is falsy — a read of
`v` from inside the body of the active function `fn` never resolves to a
binding of `v` declared after `fn`'s own entry: if `v` is not bound in the
frames created inside the call (the first scan, from the top down to the
caller frame), and in every record of the declaration chain the scan reaches
`fn`'s entry (or the end) before any entry for `v`, the read returns the
no-value sentinel and leaves the stack unchanged — even though `v` may be
bound, with a real value, after `fn` in those records. -/
theorem claim_C2 (ev : Evaluator) (s : Stack) (r sindex : Int) (fn v : Str)
    (rest : List (RIdx × Int × Str))
    (hT : s.typing = false)
    (hF : s.funcStack = (RIdx.int r, sindex, fn) :: rest)
    (h1 : ∀ i ∈ intRangeDown ((s.records.length : Int) - 1) (sindex - 1),
        recHasKey s i v = false)
    (h2 : ∀ i ∈ intRangeDown r (-1), recStops s i fn v = true) :
    stackGetP ev s v = some (PyVal.pnone, s) := by
  unfold stackGetP
  rw [hF, hT]
  simp only [List.isEmpty_cons, Bool.not_false, decide_True, Bool.and_self, if_pos rfl]
  rw [scanRecords_absent ev s v _ h1]
  exact scanRecords_stops ev s v fn _ h2

/-- Witness for C2: a concrete stack declaring `f` before `v` in the global
record; reading `v` from inside `f` yields the sentinel although `v` holds
the value 5 there. -/
theorem claim_C2_witness :
    stackGetP (evalE 3)
      { records :=
          [{ entries := [(strOf "f", PyVal.pnone), (strOf "v", PyVal.pint 5)],
             calltype := CallType.CBV },
           { entries := [], calltype := CallType.CBV }],
        typing := false, calltype := CallType.CBV, ret := PyVal.pnone,
        funcStack := [(RIdx.int 0, 1, strOf "f")], funcReturns := [] }
      (strOf "v") =
      some (PyVal.pnone,
        { records :=
            [{ entries := [(strOf "f", PyVal.pnone), (strOf "v", PyVal.pint 5)],
               calltype := CallType.CBV },
             { entries := [], calltype := CallType.CBV }],
          typing := false, calltype := CallType.CBV, ret := PyVal.pnone,
          funcStack := [(RIdx.int 0, 1, strOf "f")], funcReturns := [] }) := by
  exact claim_C2 (evalE 3) _ 0 1 (strOf "f") (strOf "v") [] rfl rfl
    (by decide) (by decide)

/-- Claim C3 (confirmed): under CBNEED, a parameter bound to a deferred
expression is evaluated exactly once.  The first read through
`ActivatationRecord.get_value` evaluates the stored text and overwrites the
binding with the resulting value (first conjunct), and once the binding
holds that value, every later read — from any stack state and with any
evaluator, so in particular after variables mentioned by the expression have
changed — returns the cached value without evaluating anything and without
touching the stack (second conjunct, which covers the second, third and all
further reads). -/
theorem claim_C3 (ev : Evaluator) (s : Stack) (i : Int) (name : Str)
    (elems : List Elem) (e : Expr) (v : Int) (s1 : Stack)
    (rec0 rec1 : ARecord) (rs : List ARecord)
    (h0 : pyGet s.records i = some rec0)
    (hb : dictFind rec0.entries name = some (PyVal.pdefer elems))
    (hp : parseElems elems = some e)
    (hev : ev e s = some (PyVal.pint v, s1))
    (h1 : pyGet s1.records i = some rec1)
    (hct : rec1.calltype = CallType.CBNEED)
    (hcur : dictFind rec1.entries name = some (PyVal.pdefer elems))
    (hset : pySet s1.records i
      { rec1 with entries := dictSet rec1.entries name (PyVal.pint v) } = some rs) :
    recordGet ev s i name none = some (PyVal.pint v, { s1 with records := rs }) ∧
    (∀ (ev' : Evaluator) (t : Stack) (rec2 : ARecord),
      pyGet t.records i = some rec2 →
      dictFind rec2.entries name = some (PyVal.pint v) →
      recordGet ev' t i name none = some (PyVal.pint v, t)) := by
  constructor
  · unfold recordGet recordObtain
    rw [hct] at hset
    simp only [h0, hb, hp, hev, h1, hcur, hct, hset, Option.isSome_some, if_pos rfl,
      pyEqB, Bool.not_false, decide_True, Bool.and_self]
    simp
  · intro ev' t rec2 hg hd
    unfold recordGet recordObtain
    simp only [hg, hd, Option.isSome_some, if_pos rfl]
    simp

/-- Witness for C3: the CBNEED record binds `p` to the deferred text
`x + 1`; with `x = 5` in the outer record the first read computes 6 and
overwrites the binding, and a later read of the overwritten binding returns
6 regardless of the stack (instantiated here with `x` changed to 100). -/
theorem claim_C3_witness :
    recordGet (evalE 10)
      { records :=
          [{ entries := [(strOf "x", PyVal.pint 5)], calltype := CallType.CBNEED },
           { entries := [(strOf "p", PyVal.pdefer (elemsOf (strOf "x + 1")))],
             calltype := CallType.CBNEED }],
        typing := true, calltype := CallType.CBNEED, ret := PyVal.pnone,
        funcStack := [], funcReturns := [] }
      1 (strOf "p") none =
      some (PyVal.pint 6,
        { records :=
            [{ entries := [(strOf "x", PyVal.pint 5)], calltype := CallType.CBNEED },
             { entries := [(strOf "p", PyVal.pint 6)], calltype := CallType.CBNEED }],
          typing := true, calltype := CallType.CBNEED, ret := PyVal.pnone,
          funcStack := [], funcReturns := [] }) ∧
    recordGet (evalE 10)
      { records :=
          [{ entries := [(strOf "x", PyVal.pint 100)], calltype := CallType.CBNEED },
           { entries := [(strOf "p", PyVal.pint 6)], calltype := CallType.CBNEED }],
        typing := true, calltype := CallType.CBNEED, ret := PyVal.pnone,
        funcStack := [], funcReturns := [] }
      1 (strOf "p") none =
      some (PyVal.pint 6,
        { records :=
            [{ entries := [(strOf "x", PyVal.pint 100)], calltype := CallType.CBNEED },
             { entries := [(strOf "p", PyVal.pint 6)], calltype := CallType.CBNEED }],
          typing := true, calltype := CallType.CBNEED, ret := PyVal.pnone,
          funcStack := [], funcReturns := [] }) := by
  have h := claim_C3 (evalE 10)
    { records :=
        [{ entries := [(strOf "x", PyVal.pint 5)], calltype := CallType.CBNEED },
         { entries := [(strOf "p", PyVal.pdefer (elemsOf (strOf "x + 1")))],
           calltype := CallType.CBNEED }],
      typing := true, calltype := CallType.CBNEED, ret := PyVal.pnone,
      funcStack := [], funcReturns := [] }
    1 (strOf "p") (elemsOf (strOf "x + 1"))
    (Expr.add (Expr.var (strOf "x")) (Expr.lit 1)) 6
    { records :=
        [{ entries := [(strOf "x", PyVal.pint 5)], calltype := CallType.CBNEED },
         { entries := [(strOf "p", PyVal.pdefer (elemsOf (strOf "x + 1")))],
           calltype := CallType.CBNEED }],
      typing := true, calltype := CallType.CBNEED, ret := PyVal.pnone,
      funcStack := [], funcReturns := [] }
    { entries := [(strOf "p", PyVal.pdefer (elemsOf (strOf "x + 1")))],
      calltype := CallType.CBNEED }
    { entries := [(strOf "p", PyVal.pdefer (elemsOf (strOf "x + 1")))],
      calltype := CallType.CBNEED }
    [{ entries := [(strOf "x", PyVal.pint 5)], calltype := CallType.CBNEED },
     { entries := [(strOf "p", PyVal.pint 6)], calltype := CallType.CBNEED }]
    rfl rfl rfl rfl rfl rfl rfl rfl
  exact ⟨h.1, h.2 (evalE 10)
    { records :=
        [{ entries := [(strOf "x", PyVal.pint 100)], calltype := CallType.CBNEED },
         { entries := [(strOf "p", PyVal.pint 6)], calltype := CallType.CBNEED }],
      typing := true, calltype := CallType.CBNEED, ret := PyVal.pnone,
      funcStack := [], funcReturns := [] }
    { entries := [(strOf "p", PyVal.pint 6)], calltype := CallType.CBNEED }
    rfl rfl⟩

/-- Claim C7 (confirmed): a name the active scoping discipline cannot find
behaves as follows.  Reading it returns the no-value sentinel `None` and
leaves the stack unchanged, on the dynamic path (first conjunct) and on the
static path (second conjunct).  A write that reports `False` is an atomic
no-op: the stack is returned exactly as it was (third conjunct, with no
side condition at all).  And a write of an unfound name does report
`False`, unchanged, on the dynamic path (fourth conjunct) and on the static
path (fifth conjunct, under the proviso that the static path's
per-iteration `eval` of the value text succeeds — it is only ever reached
with the printed text of an int or of `None`). -/
theorem claim_C7 (ev : Evaluator) (s : Stack) (name : Str) (sv : SetVal) :
    ((s.funcStack = [] ∨ s.typing = true) →
      (∀ i ∈ intRangeDown ((s.records.length : Int) - 1) (-1),
        recHasKey s i name = false) →
      stackGetP ev s name = some (PyVal.pnone, s)) ∧
    (∀ (r sindex : Int) (fn : Str) (rest : List (RIdx × Int × Str)),
      s.typing = false →
      s.funcStack = (RIdx.int r, sindex, fn) :: rest →
      (∀ i ∈ intRangeDown ((s.records.length : Int) - 1) (sindex - 1),
        recHasKey s i name = false) →
      (∀ i ∈ intRangeDown r (-1), recHasKey s i name = false) →
      stackGetP ev s name = some (PyVal.pnone, s)) ∧
    (∀ (b : Bool) (s' : Stack), stackSet s name sv = some (b, s') → b = false →
      s' = s) ∧
    ((s.funcStack = [] ∨ s.typing = true) →
      (∀ i ∈ intRangeDown ((s.records.length : Int) - 1) (-1),
        recHasKey s i name = false) →
      stackSet s name sv = some (false, s)) ∧
    (∀ (r sindex : Int) (fn : Str) (rest : List (RIdx × Int × Str)) (w : PyVal),
      s.typing = false →
      s.funcStack = (RIdx.int r, sindex, fn) :: rest →
      svOuterEval sv = some w →
      (∀ i ∈ intRangeDown ((s.records.length : Int) - 1) (sindex - 1),
        recHasKey s i name = false) →
      (∀ i ∈ intRangeDown r (-1), recHasKey s i name = false) →
      stackSet s name sv = some (false, s)) := by
  refine ⟨?_, ?_, ?_, ?_, ?_⟩
  · intro hdyn h
    unfold stackGetP
    have hcond : (!s.funcStack.isEmpty && decide (s.typing = false)) = false := by
      cases hdyn with
      | inl hf => simp [hf]
      | inr ht => simp [ht]
    rw [hcond]
    exact scanRecords_absent ev s name _ h
  · intro r sindex fn rest hT hF h1 h2
    unfold stackGetP
    rw [hF, hT]
    simp only [List.isEmpty_cons, Bool.not_false, decide_True, Bool.and_self, if_pos rfl]
    rw [scanRecords_absent ev s name _ h1]
    exact scanRecords_stops ev s name fn _
      (fun i hi => recStops_of_no_key s i fn name (h2 i hi))
  · intro b s' h hb
    subst hb
    unfold stackSet at h
    split at h
    · split at h
      · exact absurd h (by simp)
      · split at h
        · exact absurd h (by simp)
        · rename_i b1 s1 hph
          split at h
          · simp at h
          · rename_i hb1
            have hb1' : b1 = false := by simpa using hb1
            subst hb1'
            have hs1 := setRecords_false_unchanged _ _ _ none _ s1 hph
            subst hs1
            split at h
            · exact absurd h (by simp)
            · exact setRecords_false_unchanged _ _ _ _ _ s' h
    · exact setRecords_false_unchanged s name _ none _ s' h
  · intro hdyn h
    unfold stackSet
    have hcond : (!s.funcStack.isEmpty && decide (s.typing = false)) = false := by
      cases hdyn with
      | inl hf => simp [hf]
      | inr ht => simp [ht]
    rw [hcond]
    exact setRecords_absent s name _ none _ (by intro u; rfl) h
  · intro r sindex fn rest w hT hF hw h1 h2
    unfold stackSet
    rw [hF, hT]
    simp only [List.isEmpty_cons, Bool.not_false, decide_True, Bool.and_self, if_pos rfl]
    rw [setRecords_absent s name _ none _ (by intro u; simp [hw]) h1]
    exact setRecords_absent s name _ (some fn) _ (by intro u; simp [hw]) h2

/-- Witness for C7 at a concrete stack with `x` bound but `y` unresolved:
reading `y` yields the sentinel, writing `y` returns `False` and the stack
comes back unchanged. -/
theorem claim_C7_witness :
    stackGetP (evalE 3)
      { records := [{ entries := [(strOf "x", PyVal.pint 1)], calltype := CallType.CBV }],
        typing := true, calltype := CallType.CBV, ret := PyVal.pnone,
        funcStack := [], funcReturns := [] }
      (strOf "y") =
      some (PyVal.pnone,
        { records := [{ entries := [(strOf "x", PyVal.pint 1)], calltype := CallType.CBV }],
          typing := true, calltype := CallType.CBV, ret := PyVal.pnone,
          funcStack := [], funcReturns := [] }) ∧
    stackSet
      { records := [{ entries := [(strOf "x", PyVal.pint 1)], calltype := CallType.CBV }],
        typing := true, calltype := CallType.CBV, ret := PyVal.pnone,
        funcStack := [], funcReturns := [] }
      (strOf "y") (SetVal.fromStr (PyVal.pint 2)) =
      some (false,
        { records := [{ entries := [(strOf "x", PyVal.pint 1)], calltype := CallType.CBV }],
          typing := true, calltype := CallType.CBV, ret := PyVal.pnone,
          funcStack := [], funcReturns := [] }) := by
  refine ⟨(claim_C7 (evalE 3) _ (strOf "y") (SetVal.fromStr (PyVal.pint 2))).1
      (Or.inl rfl) (by decide),
    (claim_C7 (evalE 3) _ (strOf "y") (SetVal.fromStr (PyVal.pint 2))).2.2.2.1
      (Or.inl rfl) (by decide)⟩

/-- Skipping an unset binding during the plain scan. -/
theorem scanRecords_skip_unset (ev : Evaluator) (s : Stack) (name : Str)
    (i : Int) (tl : List Int) (r : ARecord)
    (hg : pyGet s.records i = some r)
    (hd : dictFind r.entries name = some PyVal.pnone) :
    scanRecords ev s name none (i :: tl) = scanRecords ev s name none tl := by
  conv_lhs => unfold scanRecords
  rw [recordGet_unset ev s i name r hg hd]
  rfl

/-- Hitting a concrete int during the plain scan. -/
theorem scanRecords_hit_value (ev : Evaluator) (s : Stack) (name : Str)
    (i : Int) (tl : List Int) (r : ARecord) (v : Int)
    (hg : pyGet s.records i = some r)
    (hd : dictFind r.entries name = some (PyVal.pint v)) :
    scanRecords ev s name none (i :: tl) = some (PyVal.pint v, s) := by
  unfold scanRecords
  rw [recordGet_value ev s i name r v hg hd]
  rfl

/-- The first visited record accepting a write ends the assignment loop. -/
theorem setRecords_hit (s : Stack) (name : Str) (sv : SetVal) (i : Int)
    (tl : List Int) (r rec1 : ARecord) (rs : List ARecord)
    (hg : pyGet s.records i = some r)
    (hrs : recordSet r name sv none = some (true, rec1))
    (hset : pySet s.records i rec1 = some rs) :
    setRecords s name (fun _ => some sv) none (i :: tl) =
      some (true, { s with records := rs }) := by
  unfold setRecords
  simp only [hg, hrs, hset, if_pos rfl]
  rfl

/-- Claim C9 (confirmed): a declared-but-unset binding in the innermost
record does not shadow an outer binding on read — `get_value` returns the
sentinel for the unset entry, so the plain scan continues into older records
and returns the first concrete value (first conjunct) and, when every record
holds the name unset or not at all, the read is the sentinel (third
conjunct) — whereas `set_value` for the same name writes to that innermost
declared binding (second conjunct): reads and writes of a declared-but-unset
name target different records. -/
theorem claim_C9 (ev : Evaluator) (s : Stack) (A : List ARecord)
    (rOld rNew : ARecord) (name : Str) (v : Int) (sv : SetVal) (w : PyVal)
    (hs : s.records = A ++ [rOld, rNew])
    (hdyn : s.funcStack = [])
    (hNew : dictFind rNew.entries name = some PyVal.pnone)
    (hOld : dictFind rOld.entries name = some (PyVal.pint v))
    (hsv : svRecordVal sv = some w) :
    stackGetP ev s name = some (PyVal.pint v, s) ∧
    stackSet s name sv =
      some (true, { s with records :=
        A ++ [rOld, { rNew with entries := dictSet rNew.entries name w }] }) ∧
    (∀ s' : Stack, s'.funcStack = [] →
      (∀ r ∈ s'.records, unsetOrAbsent r name = true) →
      stackGetP ev s' name = some (PyVal.pnone, s')) := by
  have hlen : s.records.length = A.length + 2 := by rw [hs]; simp
  have hr1 : ((s.records.length : Int) - 1) = (A.length : Int) + 1 := by
    rw [hlen]; push_cast; ring
  have hNewIdx : pyGet s.records ((A.length : Int) + 1) = some rNew := by
    rw [hs]
    have : ((A.length : Int) + 1) = ((A.length + 1 : Nat) : Int) := by push_cast; ring
    rw [this, pyGet_natIdx _ _ (by simp)]
    rw [listGetQ_append_right A [rOld, rNew] 1]
    rfl
  have hOldIdx : pyGet s.records ((A.length : Int)) = some rOld := by
    rw [hs, pyGet_natIdx _ _ (by simp)]
    rw [show A.length = A.length + 0 from rfl, listGetQ_append_right A [rOld, rNew] 0]
    rfl
  refine ⟨?_, ?_, ?_⟩
  · unfold stackGetP
    rw [hdyn]
    have hstep : scanRecords ev s name none
        (intRangeDown ((s.records.length : Int) - 1) (-1)) =
        some (PyVal.pint v, s) := by
      rw [hr1, intRangeDown_cons _ (by omega),
        show (A.length : Int) + 1 - 1 = (A.length : Int) by ring,
        intRangeDown_cons _ (by omega),
        scanRecords_skip_unset ev s name _ _ rNew hNewIdx hNew,
        scanRecords_hit_value ev s name _ _ rOld v hOldIdx hOld]
    rw [hstep]
    rfl
  · unfold stackSet
    rw [hdyn]
    have hrs : recordSet rNew name sv none =
        some (true, { rNew with entries := dictSet rNew.entries name w }) := by
      simp [recordSet, hNew, hsv]
    have hst : pySet s.records ((A.length : Int) + 1)
        { rNew with entries := dictSet rNew.entries name w } =
        some (A ++ [rOld, { rNew with entries := dictSet rNew.entries name w }]) := by
      have hidx : pySet s.records ((A.length : Int) + 1)
          { rNew with entries := dictSet rNew.entries name w } =
          some (s.records.set (A.length + 1)
            { rNew with entries := dictSet rNew.entries name w }) := by
        unfold pySet pyIdx
        rw [if_pos (by omega), if_pos (by rw [hlen]; push_cast; omega)]
        have : ((A.length : Int) + 1).toNat = A.length + 1 := by omega
        rw [this]
        rfl
      rw [hidx, hs, listSet_append_right2]
    have hstep : setRecords s name (fun _ => some sv) none
        (intRangeDown ((s.records.length : Int) - 1) (-1)) =
        some (true, { s with records :=
          A ++ [rOld, { rNew with entries := dictSet rNew.entries name w }] }) := by
      rw [hr1, intRangeDown_cons _ (by omega)]
      exact setRecords_hit s name sv _ _ rNew _ _ hNewIdx hrs hst
    rw [hstep, hdyn]
    rfl
  · intro s' hf hall
    unfold stackGetP
    rw [hf]
    show scanRecords ev s' name none
      (intRangeDown ((s'.records.length : Int) - 1) (-1)) = some (PyVal.pnone, s')
    apply scanRecords_unset
    intro i hi
    have hmem := mem_intRangeDown _ _ hi
    obtain ⟨r, hg, hm⟩ := pyGet_valid s'.records i hmem.1 (by
      have := hmem.2
      omega)
    exact ⟨r, hg, hall r hm⟩

/-- Witness for C9: with `n` declared-but-unset in the inner record and
bound to 7 in the outer one, a read returns 7 from the outer record while a
write of 9 lands in the inner record. -/
theorem claim_C9_witness :
    stackGetP (evalE 3)
      { records :=
          [{ entries := [(strOf "n", PyVal.pint 7)], calltype := CallType.CBV },
           { entries := [(strOf "n", PyVal.pnone)], calltype := CallType.CBV }],
        typing := true, calltype := CallType.CBV, ret := PyVal.pnone,
        funcStack := [], funcReturns := [] }
      (strOf "n") =
      some (PyVal.pint 7,
        { records :=
            [{ entries := [(strOf "n", PyVal.pint 7)], calltype := CallType.CBV },
             { entries := [(strOf "n", PyVal.pnone)], calltype := CallType.CBV }],
          typing := true, calltype := CallType.CBV, ret := PyVal.pnone,
          funcStack := [], funcReturns := [] }) ∧
    stackSet
      { records :=
          [{ entries := [(strOf "n", PyVal.pint 7)], calltype := CallType.CBV },
           { entries := [(strOf "n", PyVal.pnone)], calltype := CallType.CBV }],
        typing := true, calltype := CallType.CBV, ret := PyVal.pnone,
        funcStack := [], funcReturns := [] }
      (strOf "n") (SetVal.fromStr (PyVal.pint 9)) =
      some (true,
        { records :=
            [{ entries := [(strOf "n", PyVal.pint 7)], calltype := CallType.CBV },
             { entries := [(strOf "n", PyVal.pint 9)], calltype := CallType.CBV }],
          typing := true, calltype := CallType.CBV, ret := PyVal.pnone,
          funcStack := [], funcReturns := [] }) := by
  have h := claim_C9 (evalE 3)
    { records :=
        [{ entries := [(strOf "n", PyVal.pint 7)], calltype := CallType.CBV },
         { entries := [(strOf "n", PyVal.pnone)], calltype := CallType.CBV }],
      typing := true, calltype := CallType.CBV, ret := PyVal.pnone,
      funcStack := [], funcReturns := [] }
    [] { entries := [(strOf "n", PyVal.pint 7)], calltype := CallType.CBV }
    { entries := [(strOf "n", PyVal.pnone)], calltype := CallType.CBV }
    (strOf "n") 7 (SetVal.fromStr (PyVal.pint 9)) (PyVal.pint 9)
    rfl rfl rfl rfl rfl
  exact ⟨h.1, h.2.1⟩

/-! ### Record-count preservation of expression evaluation -/

/-- A successful Python list store has the original length. -/
theorem pySet_len (l : List α) (i : Int) (a : α) (rs : List α)
    (h : pySet l i a = some rs) : rs.length = l.length := by
  unfold pySet at h
  cases hp : pyIdx l.length i with
  | none => rw [hp] at h; simp at h
  | some n =>
    rw [hp] at h
    have h2 : l.set n a = rs := by
      have : some (l.set n a) = some rs := h
      exact Option.some.inj this
    rw [← h2]
    exact List.length_set l n a

theorem recordObtain_len (ev : Evaluator) (hev : EvLen ev) (s : Stack) (i : Int)
    (name : Str) (v : PyVal) (s' : Stack)
    (h : recordObtain ev s i name = some (v, s')) :
    s'.records.length = s.records.length := by
  unfold recordObtain at h
  split at h
  · exact absurd h (by simp)
  · split at h
    · exact absurd h (by simp)
    · split at h
      · split at h
        · exact absurd h (by simp)
        · split at h
          · exact absurd h (by simp)
          · rename_i v1 s1 hev1
            split at h
            · exact absurd h (by simp)
            · split at h
              · exact absurd h (by simp)
              · split at h
                · split at h
                  · exact absurd h (by simp)
                  · rename_i rs hset
                    simp only [Option.some.injEq, Prod.mk.injEq] at h
                    rw [← h.2]
                    have hlen1 := pySet_len _ _ _ _ hset
                    have hlen2 := hev _ _ _ _ hev1
                    simpa using hlen1.trans hlen2
                · simp only [Option.some.injEq, Prod.mk.injEq] at h
                  rw [← h.2]
                  exact hev _ _ _ _ hev1
      all_goals
        simp only [Option.some.injEq, Prod.mk.injEq] at h
        rw [← h.2]

theorem recordGetScan_len (ev : Evaluator) (hev : EvLen ev) (s : Stack)
    (i : Int) (name fn : Str) (es : List (Str × PyVal)) (v : PyVal) (s' : Stack)
    (h : recordGetScan ev s i name fn es = some (v, s')) :
    s'.records.length = s.records.length := by
  induction es with
  | nil =>
    simp only [recordGetScan, Option.some.injEq, Prod.mk.injEq] at h
    rw [← h.2]
  | cons kv tl ih =>
    obtain ⟨k, w⟩ := kv
    simp only [recordGetScan] at h
    by_cases hk : k = fn
    · rw [if_pos hk] at h
      simp only [Option.some.injEq, Prod.mk.injEq] at h
      rw [← h.2]
    · rw [if_neg hk] at h
      by_cases hn : k = name
      · rw [if_pos hn] at h
        exact recordObtain_len ev hev s i name v s' h
      · rw [if_neg hn] at h
        exact ih h

theorem recordGet_len (ev : Evaluator) (hev : EvLen ev) (s : Stack) (i : Int)
    (name : Str) (fname : Option Str) (v : PyVal) (s' : Stack)
    (h : recordGet ev s i name fname = some (v, s')) :
    s'.records.length = s.records.length := by
  unfold recordGet at h
  split at h
  · exact absurd h (by simp)
  · split at h
    · exact recordGetScan_len ev hev s i name _ _ v s' h
    · split at h
      · exact recordObtain_len ev hev s i name v s' h
      · simp only [Option.some.injEq, Prod.mk.injEq] at h
        rw [← h.2]

theorem scanRecords_len (ev : Evaluator) (hev : EvLen ev) (s : Stack)
    (name : Str) (fname : Option Str) (idxs : List Int) (v : PyVal) (s' : Stack)
    (h : scanRecords ev s name fname idxs = some (v, s')) :
    s'.records.length = s.records.length := by
  induction idxs generalizing s with
  | nil =>
    simp only [scanRecords, Option.some.injEq, Prod.mk.injEq] at h
    rw [← h.2]
  | cons i tl ih =>
    simp only [scanRecords] at h
    split at h
    · exact absurd h (by simp)
    · rename_i v1 s1 hg
      have hl1 := recordGet_len ev hev s i name fname v1 s1 hg
      split at h
      · exact (ih s1 h).trans hl1
      · simp only [Option.some.injEq, Prod.mk.injEq] at h
        rw [← h.2]
        exact hl1

theorem stackGetP_len (ev : Evaluator) (hev : EvLen ev) (s : Stack)
    (name : Str) (v : PyVal) (s' : Stack)
    (h : stackGetP ev s name = some (v, s')) :
    s'.records.length = s.records.length := by
  unfold stackGetP at h
  split at h
  · split at h
    · exact absurd h (by simp)
    · split at h
      · exact absurd h (by simp)
      · rename_i v1 s1 hscan
        have hl1 := scanRecords_len ev hev s name none _ v1 s1 hscan
        split at h
        · simp only [Option.some.injEq, Prod.mk.injEq] at h
          rw [← h.2]
          exact hl1
        · split at h
          · exact absurd h (by simp)
          · exact (scanRecords_len ev hev s1 name _ _ v s' h).trans hl1
  · exact scanRecords_len ev hev s name none _ v s' h

theorem evalCore_len (get : Str → Stack → Option (PyVal × Stack))
    (hget : ∀ n s v s', get n s = some (v, s') → s'.records.length = s.records.length)
    (e : Expr) : ∀ (s : Stack) (v : PyVal) (s' : Stack),
    evalCore get e s = some (v, s') → s'.records.length = s.records.length := by
  induction e with
  | lit n =>
    intro s v s' h
    simp only [evalCore, Option.some.injEq, Prod.mk.injEq] at h
    rw [← h.2]
  | var nm =>
    intro s v s' h
    exact hget nm s v s' h
  | tok k =>
    intro s v s' h
    cases k with
    | none => exact absurd h (by simp [evalCore])
    | some key =>
      simp only [evalCore] at h
      split at h
      · exact absurd h (by simp)
      · simp only [Option.some.injEq, Prod.mk.injEq] at h
        rw [← h.2]
  | neg a iha =>
    intro s v s' h
    simp only [evalCore] at h
    split at h
    · rename_i n s1 heq
      simp only [Option.some.injEq, Prod.mk.injEq] at h
      rw [← h.2]
      exact iha s (PyVal.pint n) s1 heq
    · exact absurd h (by simp)
  | uplus a iha =>
    intro s v s' h
    simp only [evalCore] at h
    split at h
    · rename_i n s1 heq
      simp only [Option.some.injEq, Prod.mk.injEq] at h
      rw [← h.2]
      exact iha s (PyVal.pint n) s1 heq
    · exact absurd h (by simp)
  | add a b iha ihb =>
    intro s v s' h
    simp only [evalCore] at h
    split at h
    · exact absurd h (by simp)
    · rename_i va s1 heqa
      split at h
      · exact absurd h (by simp)
      · rename_i vb s2 heqb
        cases har : pyArith '+' va vb with
        | none => rw [har] at h; exact absurd h (by simp)
        | some w =>
          rw [har] at h
          simp only [Option.map_some', Option.some.injEq, Prod.mk.injEq] at h
          rw [← h.2]
          exact (ihb s1 vb s2 heqb).trans (iha s va s1 heqa)
  | sub a b iha ihb =>
    intro s v s' h
    simp only [evalCore] at h
    split at h
    · exact absurd h (by simp)
    · rename_i va s1 heqa
      split at h
      · exact absurd h (by simp)
      · rename_i vb s2 heqb
        cases har : pyArith '-' va vb with
        | none => rw [har] at h; exact absurd h (by simp)
        | some w =>
          rw [har] at h
          simp only [Option.map_some', Option.some.injEq, Prod.mk.injEq] at h
          rw [← h.2]
          exact (ihb s1 vb s2 heqb).trans (iha s va s1 heqa)
  | mul a b iha ihb =>
    intro s v s' h
    simp only [evalCore] at h
    split at h
    · exact absurd h (by simp)
    · rename_i va s1 heqa
      split at h
      · exact absurd h (by simp)
      · rename_i vb s2 heqb
        cases har : pyArith '*' va vb with
        | none => rw [har] at h; exact absurd h (by simp)
        | some w =>
          rw [har] at h
          simp only [Option.map_some', Option.some.injEq, Prod.mk.injEq] at h
          rw [← h.2]
          exact (ihb s1 vb s2 heqb).trans (iha s va s1 heqa)
  | div a b iha ihb =>
    intro s v s' h
    exact absurd h (by simp [evalCore])
  | cmp c a b iha ihb =>
    intro s v s' h
    simp only [evalCore] at h
    split at h
    · exact absurd h (by simp)
    · rename_i va s1 heqa
      split at h
      · exact absurd h (by simp)
      · rename_i vb s2 heqb
        cases har : pyCompare c va vb with
        | none => rw [har] at h; exact absurd h (by simp)
        | some w =>
          rw [har] at h
          simp only [Option.map_some', Option.some.injEq, Prod.mk.injEq] at h
          rw [← h.2]
          exact (ihb s1 vb s2 heqb).trans (iha s va s1 heqa)

/-- The expression evaluator never changes the number of activation
records: the only mutation it performs is the CBNEED in-place overwrite.
(This lemma backs the record-count accounting of the conditional.) -/
theorem evalE_len (fuel : Nat) : EvLen (evalE fuel) := by
  induction fuel with
  | zero => intro e s v s' h; exact absurd h (by simp [evalE])
  | succ n ih =>
    intro e s v s' h
    exact evalCore_len _ (fun nm t w t' hg => stackGetP_len (evalE n) ih t nm w t' hg)
      e s v s' h

/-- C10: executing a `Conditional` evaluates the spliced condition string
and pushes exactly one fresh activation record before running the chosen
branch (first conjunct: the conditional is exactly the chosen branch run
from the stack with one empty record appended; second conjunct: evaluating
the condition itself leaves the record count unchanged).  If the branch
body nets one pop — as the retained closing-brace `ScopeClose` of a parsed
branch does — the record count after the conditional equals the count
before it (fourth conjunct); but when the condition is falsy and there is
no else clause the chosen branch is empty, the pushed record is never
popped, and the count grows by exactly one (third conjunct). -/
theorem claim_C10 (fuel : Nat) (ct : CallType) (l c r : Str)
    (ifc : List Cmd) (ifl : List (Int × Int × Int))
    (elc : List Cmd) (ell : List (Int × Int × Int))
    (s : Stack) (op : CmpOp) (e : Expr) (v : PyVal) (s2 : Stack)
    (hop : condLookup c = some op)
    (hparse : parseElems (elemsOf l ++ [Elem.cmpE op] ++ elemsOf r) = some e)
    (heval : evalE fuel e s = some (v, s2)) :
    (execCmd (fuel + 1) ct (Cmd.condCmd l c r ifc ifl elc ell) s =
       execProg fuel ct (if pyTruthy v then ifc else elc)
         (if pyTruthy v then ifl else ell)
         { s2 with records := s2.records ++ [{ entries := [], calltype := ct }] }) ∧
    s2.records.length = s.records.length ∧
    (pyTruthy v = false → elc = [] → ell = [] →
      execCmd (fuel + 1) ct (Cmd.condCmd l c r ifc ifl elc ell) s =
        some { s2 with records := s2.records ++ [{ entries := [], calltype := ct }] } ∧
      (s2.records ++ [({ entries := [], calltype := ct } : ARecord)]).length =
        s.records.length + 1) ∧
    (∀ t : Stack,
      execProg fuel ct (if pyTruthy v then ifc else elc)
        (if pyTruthy v then ifl else ell)
        { s2 with records := s2.records ++ [{ entries := [], calltype := ct }] } = some t →
      t.records.length + 1 = s2.records.length + 1 →
      execCmd (fuel + 1) ct (Cmd.condCmd l c r ifc ifl elc ell) s = some t ∧
        t.records.length = s.records.length) := by
  have hlen2 : s2.records.length = s.records.length :=
    evalE_len fuel e s v s2 heval
  have hmain : execCmd (fuel + 1) ct (Cmd.condCmd l c r ifc ifl elc ell) s =
      execProg fuel ct (if pyTruthy v then ifc else elc)
        (if pyTruthy v then ifl else ell)
        { s2 with records := s2.records ++ [{ entries := [], calltype := ct }] } := by
    show (match condLookup c with
      | none => none
      | some op =>
        match parseElems (elemsOf l ++ [Elem.cmpE op] ++ elemsOf r) with
        | none => none
        | some e =>
          match evalE fuel e s with
          | none => none
          | some (v, s2) =>
            let s3 : Stack := { s2 with
              records := s2.records ++ [({ entries := [], calltype := ct } : ARecord)] }
            if pyTruthy v then execLinesP (fun c t => execCmd fuel ct c t) ifc ifl 0 s3
            else execLinesP (fun c t => execCmd fuel ct c t) elc ell 0 s3) = _
    simp only [hop, hparse, heval]
    cases hb : pyTruthy v <;> rfl
  refine ⟨hmain, hlen2, ?_, ?_⟩
  · intro hb hec hel
    subst hec; subst hel
    rw [hmain, hb]
    constructor
    · rfl
    · simp [hlen2]
  · intro t ht hlt
    refine ⟨hmain.trans ht, ?_⟩
    have := Nat.succ_injective hlt
    rw [this, hlen2]

/-- Witness for C10: `if (x = 2) \x7b \x7d` with no else — the parser hands
the conditional the sides `(x` and `2)`, whose parentheses pair across the
spliced comparison operator — from a one-record stack binding `x` to 1: the
condition evaluates to false, the else branch is empty, and the record count
grows from 1 to 2. -/
theorem claim_C10_witness :
    condLookup (strOf "=") = some CmpOp.ceq ∧
    parseElems (elemsOf (strOf "(x") ++ [Elem.cmpE CmpOp.ceq] ++ elemsOf (strOf "2)")) =
      some (Expr.cmp CmpOp.ceq (Expr.var (strOf "x")) (Expr.lit 2)) ∧
    evalE 2 (Expr.cmp CmpOp.ceq (Expr.var (strOf "x")) (Expr.lit 2))
      { records := [{ entries := [(strOf "x", PyVal.pint 1)], calltype := CallType.CBV }],
        typing := true, calltype := CallType.CBV, ret := PyVal.pnone,
        funcStack := [], funcReturns := [] } =
      some (PyVal.pint 0,
        { records := [{ entries := [(strOf "x", PyVal.pint 1)], calltype := CallType.CBV }],
          typing := true, calltype := CallType.CBV, ret := PyVal.pnone,
          funcStack := [], funcReturns := [] }) ∧
    (execCmd 3 CallType.CBV
        (Cmd.condCmd (strOf "(x") (strOf "=") (strOf "2)")
          [Cmd.scopeDel false] [(0, 1, 0)] [] [])
        { records := [{ entries := [(strOf "x", PyVal.pint 1)], calltype := CallType.CBV }],
          typing := true, calltype := CallType.CBV, ret := PyVal.pnone,
          funcStack := [], funcReturns := [] } =
      some
        { records := [{ entries := [(strOf "x", PyVal.pint 1)], calltype := CallType.CBV },
                      { entries := [], calltype := CallType.CBV }],
          typing := true, calltype := CallType.CBV, ret := PyVal.pnone,
          funcStack := [], funcReturns := [] } ∧
     ([({ entries := [(strOf "x", PyVal.pint 1)], calltype := CallType.CBV } : ARecord)] ++
        [({ entries := [], calltype := CallType.CBV } : ARecord)]).length = 1 + 1) :=
  ⟨rfl, rfl, rfl,
    (claim_C10 2 CallType.CBV (strOf "(x") (strOf "=") (strOf "2)")
      [Cmd.scopeDel false] [(0, 1, 0)] [] []
      { records := [{ entries := [(strOf "x", PyVal.pint 1)], calltype := CallType.CBV }],
        typing := true, calltype := CallType.CBV, ret := PyVal.pnone,
        funcStack := [], funcReturns := [] }
      CmpOp.ceq (Expr.cmp CmpOp.ceq (Expr.var (strOf "x")) (Expr.lit 2))
      (PyVal.pint 0)
      { records := [{ entries := [(strOf "x", PyVal.pint 1)], calltype := CallType.CBV }],
        typing := true, calltype := CallType.CBV, ret := PyVal.pnone,
        funcStack := [], funcReturns := [] }
      rfl rfl rfl).2.2.1 rfl rfl rfl⟩

/-! ## Quote bookkeeping lemmas for the analyzer -/

theorem countQ_append (a b : Str) : countQ (a ++ b) = countQ a + countQ b := by
  unfold countQ
  rw [List.filter_append, List.length_append]

theorem countQ_cons_quote (tl : Str) : countQ ('"' :: tl) = countQ tl + 1 := by
  simp [countQ, List.filter_cons]

theorem countQ_cons_other (c : Char) (h : ¬(c = '"')) (tl : Str) :
    countQ (c :: tl) = countQ tl := by
  simp [countQ, List.filter_cons, h]

theorem noQuote_countQ (s : Str) (h : noQuote s = true) : countQ s = 0 := by
  induction s with
  | nil => rfl
  | cons c tl ih =>
    simp only [noQuote, List.all_cons, Bool.and_eq_true, Bool.not_eq_true',
      decide_eq_false_iff_not] at h
    rw [countQ_cons_other c h.1]
    exact ih h.2

theorem noQuote_of_forall (s : Str) (h : ∀ c ∈ s, ¬(c = '"')) : noQuote s = true := by
  simp only [noQuote, List.all_eq_true, Bool.not_eq_true', decide_eq_false_iff_not]
  exact h

theorem forall_of_noQuote (s : Str) (h : noQuote s = true) : ∀ c ∈ s, ¬(c = '"') := by
  simp only [noQuote, List.all_eq_true, Bool.not_eq_true', decide_eq_false_iff_not] at h
  exact h

theorem insQ_cons_quote (q : Bool) (tl : Str) : insQ q ('"' :: tl) = insQ (!q) tl := by
  simp [insQ]

theorem insQ_cons_other (q : Bool) (c : Char) (h : ¬(c = '"')) (tl : Str) :
    insQ q (c :: tl) = if q then c :: insQ q tl else insQ q tl := by
  simp [insQ, h]

theorem insQ_append (a : Str) : ∀ (q : Bool) (b : Str),
    insQ q (a ++ b) = insQ q a ++ insQ (if countQ a % 2 = 0 then q else !q) b := by
  induction a with
  | nil => intro q b; simp [insQ, countQ]
  | cons c tl ih =>
    intro q b
    by_cases hc : c = '"'
    · subst hc
      rw [List.cons_append, insQ_cons_quote, insQ_cons_quote, ih (!q) b,
        countQ_cons_quote]
      rcases Nat.mod_two_eq_zero_or_one (countQ tl) with h | h
      · rw [if_pos h, if_neg (by omega)]
      · rw [if_neg (by omega), if_pos (by omega), Bool.not_not]
    · rw [List.cons_append, insQ_cons_other q c hc, insQ_cons_other q c hc,
        countQ_cons_other c hc, ih q b]
      cases q <;> simp

theorem insQ_noQuote (t : Str) (h : noQuote t = true) : ∀ (q : Bool),
    insQ q t = if q then t else [] := by
  induction t with
  | nil => intro q; cases q <;> rfl
  | cons c tl ih =>
    intro q
    simp only [noQuote, List.all_cons, Bool.and_eq_true, Bool.not_eq_true',
      decide_eq_false_iff_not] at h
    rw [insQ_cons_other q c h.1, ih h.2]
    cases q <;> simp

theorem extGo_cons_quote_false (acc tl : Str) :
    extractToksGo false acc ('"' :: tl) = extractToksGo true [] tl := by
  simp [extractToksGo]

theorem extGo_cons_quote_true (acc tl : Str) :
    extractToksGo true acc ('"' :: tl) = acc.reverse :: extractToksGo false [] tl := by
  simp [extractToksGo]

theorem extGo_cons_other_false (acc : Str) (c : Char) (h : ¬(c = '"')) (tl : Str) :
    extractToksGo false acc (c :: tl) = extractToksGo false acc tl := by
  simp [extractToksGo, h]

theorem extGo_cons_other_true (acc : Str) (c : Char) (h : ¬(c = '"')) (tl : Str) :
    extractToksGo true acc (c :: tl) = extractToksGo true (c :: acc) tl := by
  simp [extractToksGo, h]

theorem extGo_false_noQuote (t : Str) (h : noQuote t = true) : ∀ (acc b : Str),
    extractToksGo false acc (t ++ b) = extractToksGo false acc b := by
  induction t with
  | nil => intro acc b; rfl
  | cons c tl ih =>
    intro acc b
    simp only [noQuote, List.all_cons, Bool.and_eq_true, Bool.not_eq_true',
      decide_eq_false_iff_not] at h
    rw [List.cons_append, extGo_cons_other_false acc c h.1, ih h.2]

theorem extGo_true_noQuote (t : Str) (h : noQuote t = true) : ∀ (acc b : Str),
    extractToksGo true acc (t ++ b) = extractToksGo true (t.reverse ++ acc) b := by
  induction t with
  | nil => intro acc b; rfl
  | cons c tl ih =>
    intro acc b
    simp only [noQuote, List.all_cons, Bool.and_eq_true, Bool.not_eq_true',
      decide_eq_false_iff_not] at h
    rw [List.cons_append, extGo_cons_other_true acc c h.1, ih h.2]
    simp

theorem extractToks_noQuote (t : Str) (h : noQuote t = true) : extractToks t = [] := by
  have := extGo_false_noQuote t h [] []
  simpa [extractToks] using this

theorem extGo_false_acc (s : Str) : ∀ (acc : Str),
    extractToksGo false acc s = extractToksGo false [] s := by
  induction s with
  | nil => intro acc; rfl
  | cons c tl ih =>
    intro acc
    by_cases hc : c = '"'
    · subst hc; rw [extGo_cons_quote_false, extGo_cons_quote_false]
    · rw [extGo_cons_other_false acc c hc, extGo_cons_other_false [] c hc, ih acc]

/-- Splitting the token scan at an append: an even prefix contributes its own
complete tokens, an odd prefix read from inside a token completes that token
first. -/
theorem extGo_append (a : Str) : ∀ (acc b : Str),
    (countQ a % 2 = 0 →
      extractToksGo false acc (a ++ b) =
        extractToksGo false acc a ++ extractToksGo false [] b) ∧
    (countQ a % 2 = 1 →
      extractToksGo true acc (a ++ b) =
        extractToksGo true acc a ++ extractToksGo false [] b) := by
  induction a with
  | nil =>
    intro acc b
    refine ⟨fun _ => ?_, fun h => ?_⟩
    · show extractToksGo false acc b = [] ++ extractToksGo false [] b
      rw [List.nil_append, extGo_false_acc b acc]
    · simp [countQ] at h
  | cons c tl ih =>
    intro acc b
    by_cases hc : c = '"'
    · subst hc
      rw [countQ_cons_quote]
      constructor
      · intro h
        rw [List.cons_append, extGo_cons_quote_false, extGo_cons_quote_false,
          (ih [] b).2 (by omega)]
      · intro h
        rw [List.cons_append, extGo_cons_quote_true, extGo_cons_quote_true,
          (ih [] b).1 (by omega)]
        rfl
    · rw [countQ_cons_other c hc]
      constructor
      · intro h
        rw [List.cons_append, extGo_cons_other_false acc c hc,
          extGo_cons_other_false acc c hc, (ih acc b).1 h]
      · intro h
        rw [List.cons_append, extGo_cons_other_true acc c hc,
          extGo_cons_other_true acc c hc, (ih (c :: acc) b).2 h]

theorem extractToks_append_even (a b : Str) (h : countQ a % 2 = 0) :
    extractToks (a ++ b) = extractToks a ++ extractToks b :=
  (extGo_append a [] b).1 h

/-- A quoted token at the head of the scan is extracted whole. -/
theorem extractToks_quote_cons (u b : Str) (h : noQuote u = true) :
    extractToks (quoteStr u ++ b) = u :: extractToks b := by
  show extractToksGo false [] (('"' :: (u ++ ['"'])) ++ b) = _
  rw [List.cons_append, extGo_cons_quote_false, List.append_assoc,
    extGo_true_noQuote u h [] (['"'] ++ b)]
  simp [extGo_cons_quote_true, extractToks]

/-- Every string is a quote-free tail after its last quote (if any). -/
theorem lastQuote_decomp (s : Str) :
    noQuote s = true ∨ ∃ a u, s = a ++ '"' :: u ∧ noQuote u = true := by
  induction s with
  | nil => exact Or.inl rfl
  | cons c tl ih =>
    rcases ih with h | ⟨a, u, heq, hu⟩
    · by_cases hc : c = '"'
      · subst hc; exact Or.inr ⟨[], tl, rfl, h⟩
      · refine Or.inl (noQuote_of_forall _ ?_)
        intro x hx
        rcases List.mem_cons.mp hx with h' | h'
        · rw [h']; exact hc
        · exact forall_of_noQuote tl h x h'
    · exact Or.inr ⟨c :: a, u, by rw [heq]; rfl, hu⟩

/-- Dropping the final character of a quote-balanced string leaves its token
list unchanged: the last character is either outside every token or the
closing quote of the final token, which is then read as an unterminated
token with the same content. -/
theorem extractToks_dropLast (s : Str) (h : countQ s % 2 = 0) :
    extractToks s.dropLast = extractToks s := by
  rcases List.eq_nil_or_concat s with rfl | ⟨y, c, rfl⟩
  · rfl
  · rw [List.concat_eq_append] at h ⊢
    rw [List.dropLast_concat]
    by_cases hc : c = '"'
    · subst hc
      rw [countQ_append, countQ_cons_quote] at h
      have h0 : countQ ([] : Str) = 0 := rfl
      have hy : countQ y % 2 = 1 := by omega
      rcases lastQuote_decomp y with hnq | ⟨a, u, rfl, hu⟩
      · rw [noQuote_countQ y hnq] at hy; omega
      · have hu0 := noQuote_countQ u hu
        rw [countQ_append, countQ_cons_quote] at hy
        have ha : countQ a % 2 = 0 := by omega
        have h1 : (a ++ '"' :: u) ++ ['"'] = a ++ quoteStr u := by
          simp [quoteStr]
        have e1 : extractToks (quoteStr u) = [u] := by
          have := extractToks_quote_cons u [] hu
          simpa using this
        have e2 : extractToks ('"' :: u) = [u] := by
          show extractToksGo false [] ('"' :: u) = [u]
          rw [extGo_cons_quote_false]
          have h2 := extGo_true_noQuote u hu [] []
          rw [List.append_nil] at h2
          rw [h2]
          simp [extractToksGo]
        rw [h1, extractToks_append_even a (quoteStr u) ha, e1,
          extractToks_append_even a ('"' :: u) ha, e2]
    · have hy : countQ y % 2 = 0 := by
        rw [countQ_append, countQ_cons_other c hc] at h
        simpa [countQ] using h
      rw [extractToks_append_even y [c] hy, extractToks_noQuote [c] (by
        simp [noQuote, hc])]
      simp

theorem countQ_quoteStr (u : Str) (h : noQuote u = true) : countQ (quoteStr u) = 2 := by
  show countQ ('"' :: (u ++ ['"'])) = 2
  rw [countQ_cons_quote, countQ_append, noQuote_countQ u h]
  rfl

theorem insQ_quoteStr (u : Str) (h : noQuote u = true) : insQ false (quoteStr u) = u := by
  show insQ false ('"' :: (u ++ ['"'])) = u
  rw [insQ_cons_quote]
  simp only [Bool.not_false]
  rw [insQ_append u true ['"'], noQuote_countQ u h, insQ_noQuote u h true]
  simp [insQ]

/-- Python `str.replace(old, new, 1)` either finds no occurrence and returns
the string unchanged, or splits the string around the first occurrence. -/
theorem replaceFirst_cases (t r : Str) : ∀ (s : Str),
    replaceFirst s t r = s ∨ ∃ a b, s = a ++ t ++ b ∧ replaceFirst s t r = a ++ r ++ b := by
  intro s
  induction s with
  | nil =>
    by_cases hp : t.isPrefixOf ([] : Str)
    · have ht : t = [] := List.prefix_nil.mp (List.isPrefixOf_iff_prefix.mp hp)
      subst ht
      refine Or.inr ⟨[], [], rfl, ?_⟩
      unfold replaceFirst
      rw [if_pos hp]
      rfl
    · left
      unfold replaceFirst
      rw [if_neg hp]
  | cons c tl ih =>
    by_cases hp : t.isPrefixOf (c :: tl)
    · obtain ⟨b, hb⟩ := List.isPrefixOf_iff_prefix.mp hp
      refine Or.inr ⟨[], b, by rw [← hb]; rfl, ?_⟩
      unfold replaceFirst
      rw [if_pos hp, ← hb]
      simp
    · rcases ih with h1 | ⟨a, b, heq, hrep⟩
      · left
        conv_lhs => unfold replaceFirst
        rw [if_neg hp]
        show c :: replaceFirst tl t r = c :: tl
        rw [h1]
      · right
        refine ⟨c :: a, b, by rw [heq]; rfl, ?_⟩
        conv_lhs => unfold replaceFirst
        rw [if_neg hp]
        show c :: replaceFirst tl t r = c :: a ++ r ++ b
        rw [hrep]
        rfl

/-- Replacing a quote-free occurrence that carries a parenthesis by a quoted
clean token preserves the balanced-quotes shape, and adds at most the new
token to the token list. -/
theorem replace_step (v t u : Str) (hQ : QInv v) (ht : noQuote t = true)
    (hpar : '(' ∈ t) (hu : noQuote u = true) (huc : ∀ c ∈ u, c = 'u' ∨ c = 'x') :
    QInv (replaceFirst v t (quoteStr u)) ∧
    ∀ x ∈ extractToks (replaceFirst v t (quoteStr u)), x = u ∨ x ∈ extractToks v := by
  rcases replaceFirst_cases t (quoteStr u) v with h | ⟨a, b, heq, hrep⟩
  · rw [h]; exact ⟨hQ, fun x hx => Or.inr hx⟩
  · have ht0 := noQuote_countQ t ht
    have ha : countQ a % 2 = 0 := by
      rcases Nat.mod_two_eq_zero_or_one (countQ a) with h' | h'
      · exact h'
      · exfalso
        have hmem : '(' ∈ insQ false v := by
          rw [heq, List.append_assoc, insQ_append a false (t ++ b),
            if_neg (by omega)]
          simp only [Bool.not_false]
          rw [insQ_append t true b, insQ_noQuote t ht true]
          exact List.mem_append_right _ (List.mem_append_left _ hpar)
        have h2 := hQ.2 '(' hmem
        simp at h2
    have hvq := hQ.1
    rw [heq, List.append_assoc, countQ_append, countQ_append, ht0] at hvq
    have htoksv : extractToks v = extractToks a ++ extractToks b := by
      rw [heq, List.append_assoc, extractToks_append_even a (t ++ b) ha]
      have : extractToks (t ++ b) = extractToks b := extGo_false_noQuote t ht [] b
      rw [this]
    have hinsv : insQ false v = insQ false a ++ insQ false b := by
      rw [heq, List.append_assoc, insQ_append a false (t ++ b), if_pos ha,
        insQ_append t false b, insQ_noQuote t ht false, ht0]
      simp
    have htoksr : extractToks (replaceFirst v t (quoteStr u)) =
        extractToks a ++ u :: extractToks b := by
      rw [hrep, List.append_assoc, extractToks_append_even a (quoteStr u ++ b) ha,
        extractToks_quote_cons u b hu]
    have hinsr : insQ false (replaceFirst v t (quoteStr u)) =
        insQ false a ++ (u ++ insQ false b) := by
      rw [hrep, List.append_assoc, insQ_append a false (quoteStr u ++ b), if_pos ha,
        insQ_append (quoteStr u) false b, countQ_quoteStr u hu, insQ_quoteStr u hu]
      rfl
    refine ⟨⟨?_, ?_⟩, ?_⟩
    · rw [hrep, List.append_assoc, countQ_append, countQ_append,
        countQ_quoteStr u hu]
      omega
    · intro c hc
      rw [hinsr] at hc
      rcases List.mem_append.mp hc with hc1 | hc2
      · exact hQ.2 c (by rw [hinsv]; exact List.mem_append_left _ hc1)
      · rcases List.mem_append.mp hc2 with hc3 | hc4
        · exact huc c hc3
        · exact hQ.2 c (by rw [hinsv]; exact List.mem_append_right _ hc4)
    · intro x hx
      rw [htoksr] at hx
      rcases List.mem_append.mp hx with hx1 | hx2
      · exact Or.inr (by rw [htoksv]; exact List.mem_append_left _ hx1)
      · rcases List.mem_cons.mp hx2 with hx3 | hx4
        · exact Or.inl hx3
        · exact Or.inr (by rw [htoksv]; exact List.mem_append_right _ hx4)

/-! ## Consumed-prefix lemmas for the regex engine -/

theorem matchRep_chars (P : Char → Prop) (m : Str → List Str)
    (hm : ∀ s rem, rem ∈ m s → ∃ pre, s = pre ++ rem ∧ ∀ c ∈ pre, P c) :
    ∀ (fuel : Nat) (s rem : Str), rem ∈ matchRep m fuel s →
      ∃ pre, s = pre ++ rem ∧ ∀ c ∈ pre, P c := by
  intro fuel
  induction fuel with
  | zero =>
    intro s rem h
    simp only [matchRep, List.mem_singleton] at h
    exact ⟨[], by rw [h, List.nil_append], by intro c hc; cases hc⟩
  | succ n ih =>
    intro s rem h
    simp only [matchRep, List.mem_append, List.mem_singleton, List.mem_flatMap,
      List.mem_filter] at h
    rcases h with ⟨t, ⟨htm, _⟩, hrem⟩ | h
    · obtain ⟨p1, hs1, hp1⟩ := hm s t htm
      obtain ⟨p2, hs2, hp2⟩ := ih t rem hrem
      refine ⟨p1 ++ p2, by rw [hs1, hs2, List.append_assoc], ?_⟩
      intro c hc
      rcases List.mem_append.mp hc with hc1 | hc2
      · exact hp1 c hc1
      · exact hp2 c hc2
    · exact ⟨[], by rw [h, List.nil_append], by intro c hc; cases hc⟩

theorem matchPre_chars (P : Char → Prop) : ∀ (r : Re), reChars P r →
    ∀ (s rem : Str), rem ∈ matchPre r s →
      ∃ pre, s = pre ++ rem ∧ ∀ c ∈ pre, P c := by
  intro r
  induction r with
  | eps =>
    intro _ s rem h
    simp only [matchPre, List.mem_singleton] at h
    exact ⟨[], by rw [h, List.nil_append], by intro c hc; cases hc⟩
  | cls p =>
    intro hr s rem h
    match s with
    | [] => cases h
    | c :: tl =>
      simp only [matchPre] at h
      split at h
      · rename_i hpc
        simp only [List.mem_singleton] at h
        subst h
        refine ⟨[c], rfl, ?_⟩
        intro d hd
        rw [List.mem_singleton.mp hd]
        exact hr c hpc
      · cases h
  | lit cs =>
    intro hr s rem h
    simp only [matchPre] at h
    split at h
    · simp only [List.mem_singleton] at h
      rename_i hp
      obtain ⟨b, hb⟩ := List.isPrefixOf_iff_prefix.mp hp
      refine ⟨cs, ?_, hr⟩
      rw [h, ← hb, List.drop_left]
    · cases h
  | seq a b iha ihb =>
    intro hr s rem h
    simp only [matchPre, List.mem_flatMap] at h
    obtain ⟨mid, hmid, hrem⟩ := h
    obtain ⟨p1, hs1, hp1⟩ := iha hr.1 s mid hmid
    obtain ⟨p2, hs2, hp2⟩ := ihb hr.2 mid rem hrem
    refine ⟨p1 ++ p2, by rw [hs1, hs2, List.append_assoc], ?_⟩
    intro c hc
    rcases List.mem_append.mp hc with hc1 | hc2
    · exact hp1 c hc1
    · exact hp2 c hc2
  | alt a b iha ihb =>
    intro hr s rem h
    rcases List.mem_append.mp h with h1 | h2
    · exact iha hr.1 s rem h1
    · exact ihb hr.2 s rem h2
  | opt a iha =>
    intro hr s rem h
    rcases List.mem_append.mp h with h1 | h2
    · exact iha hr s rem h1
    · simp only [List.mem_singleton] at h2
      exact ⟨[], by rw [h2, List.nil_append], by intro c hc; cases hc⟩
  | rep0 a iha =>
    intro hr s rem h
    exact matchRep_chars P _ (iha hr) s.length s rem h
  | rep1 a iha =>
    intro hr s rem h
    simp only [matchPre, List.mem_flatMap] at h
    obtain ⟨mid, hmid, hrem⟩ := h
    obtain ⟨p1, hs1, hp1⟩ := iha hr s mid hmid
    obtain ⟨p2, hs2, hp2⟩ := matchRep_chars P _ (iha hr) mid.length mid rem hrem
    refine ⟨p1 ++ p2, by rw [hs1, hs2, List.append_assoc], ?_⟩
    intro c hc
    rcases List.mem_append.mp hc with hc1 | hc2
    · exact hp1 c hc1
    · exact hp2 c hc2

theorem reChars_true : ∀ (r : Re), reChars (fun _ => True) r := by
  intro r
  induction r with
  | eps => trivial
  | cls p => intro c _; trivial
  | lit cs => intro c _; trivial
  | seq a b iha ihb => exact ⟨iha, ihb⟩
  | alt a b iha ihb => exact ⟨iha, ihb⟩
  | opt a iha => exact iha
  | rep0 a iha => exact iha
  | rep1 a iha => exact iha

theorem matchPre_suffix (r : Re) (s rem : Str) (h : rem ∈ matchPre r s) :
    ∃ pre, s = pre ++ rem :=
  match matchPre_chars (fun _ => True) r (reChars_true r) s rem h with
  | ⟨pre, hs, _⟩ => ⟨pre, hs⟩

/-- `re.match` splits its subject into the matched prefix and the rest. -/
theorem reMatch_decomp (r : Re) (s g0 rem : Str) (h : reMatch r s = some (g0, rem)) :
    s = g0 ++ rem ∧ rem ∈ matchPre r s := by
  unfold reMatch at h
  split at h
  · exact absurd h (by simp)
  · rename_i t ts heq
    simp only [Option.some.injEq, Prod.mk.injEq] at h
    obtain ⟨hg, ht⟩ := h
    have hmem : rem ∈ matchPre r s := by
      rw [heq, ← ht]
      exact List.mem_cons_self _ _
    obtain ⟨pre, hs⟩ := matchPre_suffix r s rem hmem
    have hlen : s.length - rem.length = pre.length := by
      rw [hs, List.length_append]; omega
    refine ⟨?_, hmem⟩
    rw [← hg, ht, hlen, hs, List.take_left]

theorem reChars_comma :
    reChars (fun c => isWs c = true ∨ c = ',') commaRe := by
  refine ⟨fun c h => Or.inl h, fun c hc => Or.inr ?_, fun c h => Or.inl h⟩
  simpa [strOf] using hc

theorem matchPre_seq_mem (a b : Re) (s rem : Str) :
    rem ∈ matchPre (Re.seq a b) s ↔ ∃ mid, mid ∈ matchPre a s ∧ rem ∈ matchPre b mid := by
  show rem ∈ (matchPre a s).flatMap (fun t => matchPre b t) ↔ _
  simp [List.mem_flatMap]

/-- A successful match of `name+\s*\(` consumes a group that contains the
opening parenthesis (as its last character). -/
theorem nameLParen_g0 (s g0 rem : Str) (h : reMatch nameLParenRe s = some (g0, rem)) :
    s = g0 ++ rem ∧ '(' ∈ g0 := by
  obtain ⟨hs, hmem⟩ := reMatch_decomp nameLParenRe s g0 rem h
  refine ⟨hs, ?_⟩
  obtain ⟨mid1, hmid1, hmem2⟩ :=
    (matchPre_seq_mem nameP (Re.seq wsS (Re.lit (strOf "("))) s rem).mp hmem
  obtain ⟨mid2, hmid2, hmem3⟩ :=
    (matchPre_seq_mem wsS (Re.lit (strOf "(")) mid1 rem).mp hmem2
  have hlit : mid2 = strOf "(" ++ rem := by
    simp only [matchPre] at hmem3
    split at hmem3
    · rename_i hp
      obtain ⟨b, hb⟩ := List.isPrefixOf_iff_prefix.mp hp
      simp only [List.mem_singleton] at hmem3
      rw [hmem3, ← hb, List.drop_left]
    · cases hmem3
  obtain ⟨p1, hs1⟩ := matchPre_suffix _ s mid1 hmid1
  obtain ⟨p2, hs2⟩ := matchPre_suffix _ mid1 mid2 hmid2
  have hdec : s = (p1 ++ p2 ++ strOf "(") ++ rem := by
    rw [hs1, hs2, hlit]
    simp [List.append_assoc]
  have hg : g0 = p1 ++ p2 ++ strOf "(" := by
    have := hs.symm.trans hdec
    exact List.append_cancel_right this
  rw [hg]
  exact List.mem_append_right _ (by simp [strOf])

theorem sepChar_facts (c : Char) (h : isWs c = true ∨ c = ',') :
    ¬(c = '"') ∧ ¬(c = 'u') ∧ ¬(c = 'x') := by
  rcases h with h | rfl
  · simp only [isWs, Bool.or_eq_true, decide_eq_true_eq] at h
    rcases h with ((((h | h) | h) | h) | h) | h <;> subst h <;>
      exact ⟨by decide, by decide, by decide⟩
  · exact ⟨by decide, by decide, by decide⟩

/-- Splitting on `\s*,\s*` cuts a balanced-quotes string only between tokens:
every piece is itself balanced and its tokens are tokens of the whole. -/
theorem reSplitGo_inv (r : Re)
    (hr : reChars (fun c => isWs c = true ∨ c = ',') r) :
    ∀ (fuel : Nat) (acc s : Str), QInv (acc.reverse ++ s) →
      ∀ p ∈ reSplitGo r fuel acc s,
        QInv p ∧ ∀ t ∈ extractToks p, t ∈ extractToks (acc.reverse ++ s) := by
  intro fuel
  induction fuel with
  | zero =>
    intro acc s hQ p hp
    cases s with
    | nil =>
      have e : reSplitGo r 0 acc [] = [acc.reverse] := rfl
      rw [e, List.mem_singleton] at hp
      subst hp
      rw [List.append_nil] at hQ
      refine ⟨hQ, fun t ht => ?_⟩
      rw [List.append_nil]
      exact ht
    | cons c tl =>
      have e : reSplitGo r 0 acc (c :: tl) = [acc.reverse ++ c :: tl] := rfl
      rw [e, List.mem_singleton] at hp
      subst hp
      exact ⟨hQ, fun t ht => ht⟩
  | succ n ih =>
    intro acc s hQ p hp
    cases s with
    | nil =>
      have e : reSplitGo r (n + 1) acc [] = [acc.reverse] := rfl
      rw [e, List.mem_singleton] at hp
      subst hp
      rw [List.append_nil] at hQ
      refine ⟨hQ, fun t ht => ?_⟩
      rw [List.append_nil]
      exact ht
    | cons c tl =>
      have hstep : (c :: acc).reverse ++ tl = acc.reverse ++ c :: tl := by simp
      have e : reSplitGo r (n + 1) acc (c :: tl) =
          (match reMatch r (c :: tl) with
           | some (g0, rest) =>
             if g0.isEmpty then reSplitGo r n (c :: acc) tl
             else acc.reverse :: reSplitGo r n [] rest
           | none => reSplitGo r n (c :: acc) tl) := rfl
      rw [e] at hp
      split at hp
      · rename_i g0 rest hm
        split at hp
        · -- empty match: advance one character
          have hQ' : QInv ((c :: acc).reverse ++ tl) := by rw [hstep]; exact hQ
          have := ih (c :: acc) tl hQ' p hp
          rw [hstep] at this
          exact this
        · -- nonempty separator: cut here
          rename_i hne
          obtain ⟨hs, hmem⟩ := reMatch_decomp r (c :: tl) g0 rest hm
          obtain ⟨pre, hpre, hallp⟩ := matchPre_chars _ r hr (c :: tl) rest hmem
          have hgp : g0 = pre := List.append_cancel_right (hs.symm.trans hpre)
          subst hgp
          have hnq : noQuote g0 = true :=
            noQuote_of_forall g0 (fun d hd => (sepChar_facts d (hallp d hd)).1)
          have hg0 := noQuote_countQ g0 hnq
          obtain ⟨c0, g0', rfl⟩ : ∃ c0 g0', g0 = c0 :: g0' := by
            cases g0 with
            | nil => exact absurd (rfl : List.isEmpty ([] : Str) = true) hne
            | cons c0 g0' => exact ⟨c0, g0', rfl⟩
          have hc0 := hallp c0 (List.mem_cons_self _ _)
          have heven : countQ acc.reverse % 2 = 0 := by
            rcases Nat.mod_two_eq_zero_or_one (countQ acc.reverse) with h' | h'
            · exact h'
            · exfalso
              have hmemc0 : c0 ∈ insQ false (acc.reverse ++ (c :: tl)) := by
                rw [hs, insQ_append acc.reverse false _, if_neg (by omega)]
                simp only [Bool.not_false]
                rw [insQ_append (c0 :: g0') true rest, insQ_noQuote _ hnq true]
                exact List.mem_append_right _ (List.mem_append_left _
                  (List.mem_cons_self _ _))
              have := hQ.2 c0 hmemc0
              rcases this with h2 | h2
              · exact (sepChar_facts c0 hc0).2.1 h2
              · exact (sepChar_facts c0 hc0).2.2 h2
          -- the current full string, decomposed
          have hfull : acc.reverse ++ (c :: tl) = acc.reverse ++ ((c0 :: g0') ++ rest) := by
            rw [hs]
          have htoksfull : extractToks (acc.reverse ++ (c :: tl)) =
              extractToks acc.reverse ++ extractToks rest := by
            rw [hfull, extractToks_append_even _ _ heven]
            have : extractToks ((c0 :: g0') ++ rest) = extractToks rest :=
              extGo_false_noQuote _ hnq [] rest
            rw [this]
          have hinsfull : insQ false (acc.reverse ++ (c :: tl)) =
              insQ false acc.reverse ++ insQ false rest := by
            rw [hfull, insQ_append acc.reverse false _, if_pos heven,
              insQ_append (c0 :: g0') false rest, insQ_noQuote _ hnq false, hg0]
            simp
          have hcfull : countQ (acc.reverse ++ (c :: tl)) =
              countQ acc.reverse + countQ rest := by
            rw [hfull, countQ_append, countQ_append, hg0]
            omega
          have hQrest : QInv rest := by
            constructor
            · have := hQ.1
              rw [hcfull] at this
              omega
            · intro d hd
              exact hQ.2 d (by rw [hinsfull]; exact List.mem_append_right _ hd)
          rcases List.mem_cons.mp hp with rfl | hp2
          · refine ⟨⟨heven, ?_⟩, ?_⟩
            · intro d hd
              exact hQ.2 d (by rw [hinsfull]; exact List.mem_append_left _ hd)
            · intro t ht
              rw [htoksfull]
              exact List.mem_append_left _ ht
          · have := ih [] rest (by simpa using hQrest) p hp2
            simp only [List.reverse_nil, List.nil_append] at this
            refine ⟨this.1, fun t ht => ?_⟩
            rw [htoksfull]
            exact List.mem_append_right _ (this.2 t ht)
      · -- no match: advance one character
        have hQ' : QInv ((c :: acc).reverse ++ tl) := by rw [hstep]; exact hQ
        have := ih (c :: acc) tl hQ' p hp
        rw [hstep] at this
        exact this

theorem reSplit_inv (s : Str) (hQ : QInv s) :
    ∀ p ∈ reSplit commaRe s, QInv p ∧ ∀ t ∈ extractToks p, t ∈ extractToks s := by
  intro p hp
  have := reSplitGo_inv commaRe reChars_comma (s.length + 1) [] s (by simpa using hQ) p hp
  simpa using this

theorem dTLP_lparen (tl : Str) : dropThroughLParen ('(' :: tl) = tl := rfl

theorem dTLP_other (c : Char) (h : ¬(c = '(')) (tl : Str) :
    dropThroughLParen (c :: tl) = dropThroughLParen tl := by
  simp [dropThroughLParen, h]

theorem dTLP_cases : ∀ (p : Str),
    (('(' ∉ p) ∧ dropThroughLParen p = []) ∨
    ∃ a z, p = a ++ '(' :: z ∧ '(' ∉ a ∧ dropThroughLParen p = z := by
  intro p
  induction p with
  | nil => exact Or.inl ⟨by simp, rfl⟩
  | cons c tl ih =>
    by_cases hc : c = '('
    · subst hc
      exact Or.inr ⟨[], tl, rfl, by simp, dTLP_lparen tl⟩
    · rcases ih with ⟨hno, he⟩ | ⟨a, z, heq, hna, he⟩
      · refine Or.inl ⟨?_, by rw [dTLP_other c hc tl, he]⟩
        intro hmem
        rcases List.mem_cons.mp hmem with h' | h'
        · exact hc h'.symm
        · exact hno h'
      · refine Or.inr ⟨c :: a, z, by rw [heq]; rfl, ?_, by rw [dTLP_other c hc tl, he]⟩
        intro hmem
        rcases List.mem_cons.mp hmem with h' | h'
        · exact hc h'.symm
        · exact hna h'

/-- Stripping everything through the first parenthesis keeps the
balanced-quotes shape and only removes tokens. -/
theorem dTLP_inv (p : Str) (hQ : QInv p) :
    QInv (dropThroughLParen p) ∧
    ∀ t ∈ extractToks (dropThroughLParen p), t ∈ extractToks p := by
  rcases dTLP_cases p with ⟨_, he⟩ | ⟨a, z, rfl, _, he⟩
  · rw [he]
    refine ⟨⟨rfl, ?_⟩, ?_⟩
    · intro c hc; cases hc
    · intro t ht; cases ht
  · have ha : countQ a % 2 = 0 := by
      rcases Nat.mod_two_eq_zero_or_one (countQ a) with h' | h'
      · exact h'
      · exfalso
        have hmem : '(' ∈ insQ false (a ++ '(' :: z) := by
          rw [insQ_append a false _, if_neg (by omega)]
          simp only [Bool.not_false]
          rw [insQ_cons_other true '(' (by decide) z]
          simp
        rcases hQ.2 '(' hmem with h2 | h2 <;> simp at h2
    have hnq : noQuote ['('] = true := by decide
    have htoks : extractToks (a ++ '(' :: z) = extractToks a ++ extractToks z := by
      rw [extractToks_append_even a _ ha]
      have h1 : ('(' :: z : Str) = ['('] ++ z := rfl
      have h2 : extractToks (['('] ++ z) = extractToks z := extGo_false_noQuote ['('] hnq [] z
      rw [h1, h2]
    have hins : insQ false (a ++ '(' :: z) = insQ false a ++ insQ false z := by
      rw [insQ_append a false _, if_pos ha, insQ_cons_other false '(' (by decide) z]
      simp
    have hcq : countQ (a ++ '(' :: z) = countQ a + countQ z := by
      rw [countQ_append, countQ_cons_other '(' (by decide) z]
    rw [he]
    refine ⟨⟨?_, ?_⟩, ?_⟩
    · have := hQ.1
      rw [hcq] at this
      omega
    · intro c hc
      exact hQ.2 c (by rw [hins]; exact List.mem_append_right _ hc)
    · intro t ht
      rw [htoks]
      exact List.mem_append_right _ ht

/-- The tokens of every extracted argument of a captured call text are
tokens of that text. -/
theorem fcallArgs_toks (sc : Str) (hQ : QInv sc) :
    ∀ arg ∈ fcallArgs sc, ∀ t ∈ extractToks arg, t ∈ extractToks sc := by
  have hraw := reSplit_inv sc hQ
  have ha1 : ∀ p ∈ (match reSplit commaRe sc with
      | [] => ([] : List Str)
      | a :: tl => dropThroughLParen a :: tl),
      QInv p ∧ ∀ t ∈ extractToks p, t ∈ extractToks sc := by
    intro p hp
    cases hsp : reSplit commaRe sc with
    | nil => rw [hsp] at hp; cases hp
    | cons a tl =>
      rw [hsp] at hp
      rcases List.mem_cons.mp hp with rfl | hp2
      · have hh := hraw a (by rw [hsp]; exact List.mem_cons_self _ _)
        have hd := dTLP_inv a hh.1
        exact ⟨hd.1, fun t ht => hh.2 t (hd.2 t ht)⟩
      · exact hraw p (by rw [hsp]; exact List.mem_cons_of_mem _ hp2)
  intro arg harg t ht
  have hfc : fcallArgs sc =
      (match (match reSplit commaRe sc with
        | [] => ([] : List Str)
        | a :: tl => dropThroughLParen a :: tl).getLast? with
      | none =>
        (match reSplit commaRe sc with
          | [] => ([] : List Str)
          | a :: tl => dropThroughLParen a :: tl)
      | some last =>
        (match reSplit commaRe sc with
          | [] => ([] : List Str)
          | a :: tl => dropThroughLParen a :: tl).dropLast ++ [last.dropLast]) := rfl
  rw [hfc] at harg
  split at harg
  · rename_i hnone
    rw [List.getLast?_eq_none_iff.mp hnone] at harg
    cases harg
  · rename_i a1x last hlast
    rcases List.mem_append.mp harg with h1 | h2
    · have : arg ∈ (match reSplit commaRe sc with
          | [] => ([] : List Str)
          | a :: tl => dropThroughLParen a :: tl) :=
        (List.dropLast_prefix _).subset h1
      exact (ha1 arg this).2 t ht
    · rcases List.mem_singleton.mp h2 with rfl
      have hlm : last ∈ (match reSplit commaRe sc with
          | [] => ([] : List Str)
          | a :: tl => dropThroughLParen a :: tl) := by
        have hx := List.mem_getLast?_eq_getLast (l := (match reSplit commaRe sc with
          | [] => ([] : List Str)
          | a :: tl => dropThroughLParen a :: tl)) (x := last) (by rw [hlast]; rfl)
        obtain ⟨hne, heq2⟩ := hx
        rw [heq2]
        exact List.getLast_mem hne
      have hq := (ha1 last hlm).1
      rw [extractToks_dropLast last hq.1] at ht
      exact (ha1 last hlm).2 t ht

theorem noQuote_subset (s p : Str) (h : noQuote s = true) (hsub : p ⊆ s) :
    noQuote p = true :=
  noQuote_of_forall p (fun c hc => forall_of_noQuote s h c (hsub hc))

theorem parenScan_mono (value : Str) : ∀ (fuel j p j' : Nat),
    parenScan value fuel j p = some j' → j ≤ j' := by
  intro fuel
  induction fuel with
  | zero =>
    intro j p j' h
    cases p with
    | zero =>
      have e : parenScan value 0 j 0 = some j := rfl
      rw [e, Option.some.injEq] at h
      omega
    | succ q =>
      have e : parenScan value 0 j (q + 1) = some j := rfl
      rw [e, Option.some.injEq] at h
      omega
  | succ n ih =>
    intro j p j' h
    cases p with
    | zero =>
      have e : parenScan value (n + 1) j 0 = some j := rfl
      rw [e, Option.some.injEq] at h
      omega
    | succ q =>
      have e : parenScan value (n + 1) j (q + 1) =
          (match value.get? j with
           | none => none
           | some c =>
             parenScan value n (j + 1)
               (if c = '(' then q + 2 else if c = ')' then q else q + 1)) := rfl
      rw [e] at h
      split at h
      · exact absurd h (by simp)
      · have := ih (j + 1) _ j' h
        omega

/-- Every call the scanning loop records has a quote-free captured text
containing a parenthesis, and a counter-generated result token. -/
theorem cfcScan_entries (value : Str) (hv : noQuote value = true) :
    ∀ (fuel i k : Nat) (acc : List FCall) (res : List FCall × Nat),
    (∀ e ∈ acc, (noQuote e.scall = true ∧ '(' ∈ e.scall) ∧ ∃ kk, e.uuid = uuidStr kk) →
    cfcScan value fuel i k acc = some res →
    ∀ e ∈ res.1, (noQuote e.scall = true ∧ '(' ∈ e.scall) ∧ ∃ kk, e.uuid = uuidStr kk := by
  intro fuel
  induction fuel with
  | zero =>
    intro i k acc res hacc h
    have e : cfcScan value 0 i k acc = some (acc, k) := rfl
    rw [e, Option.some.injEq] at h
    rw [← h]
    exact hacc
  | succ n ih =>
    intro i k acc res hacc h
    have e : cfcScan value (n + 1) i k acc =
        (if i < value.length then
          match reMatch nameLParenRe (value.drop i) with
          | some (g0, _) =>
            match parenScan value (value.length + 1) (i + g0.length) 1 with
            | none => none
            | some j =>
              cfcScan value n (i + g0.length) (k + 1)
                (acc ++ [{ scall := (value.drop i).take (j - i), uuid := uuidStr k,
                           nIdx := i, mIdx := j }])
          | none => cfcScan value n (i + 1) k acc
        else some (acc, k)) := rfl
    rw [e] at h
    split at h
    · split at h
      · rename_i g0 rest hm
        split at h
        · exact absurd h (by simp)
        · rename_i j hps
          refine ih _ _ _ res ?_ h
          intro x hx
          rcases List.mem_append.mp hx with hx1 | hx2
          · exact hacc x hx1
          · rcases List.mem_singleton.mp hx2 with rfl
            refine ⟨⟨?_, ?_⟩, ⟨k, rfl⟩⟩
            · exact noQuote_subset value _ hv
                (fun c hc => List.drop_subset i value (List.take_subset _ _ hc))
            · obtain ⟨hsplit, hg0mem⟩ := nameLParen_g0 (value.drop i) g0 rest hm
              have hj : i + g0.length ≤ j := parenScan_mono value _ _ _ _ hps
              have hlen : g0.length ≤ j - i := by omega
              show '(' ∈ (value.drop i).take (j - i)
              rw [hsplit]
              have hform : j - i = g0.length + (j - i - g0.length) := by omega
              rw [hform, List.take_append]
              exact List.mem_append_left _ hg0mem
      · exact ih _ _ _ res hacc h
    · rw [Option.some.injEq] at h
      rw [← h]
      exact hacc

theorem uuidStr_chars (kk : Nat) :
    noQuote (uuidStr kk) = true ∧ ∀ c ∈ uuidStr kk, c = 'u' ∨ c = 'x' := by
  have hmem : ∀ c ∈ uuidStr kk, c = 'u' ∨ c = 'x' := by
    intro c hc
    rcases List.mem_cons.mp hc with h | h
    · exact Or.inl h
    · exact Or.inr (List.eq_of_mem_replicate h)
  refine ⟨noQuote_of_forall _ ?_, hmem⟩
  intro c hc
  rcases hmem c hc with rfl | rfl <;> decide

theorem any_set_eq (l : List α) : ∀ (i : Nat) (a b : α) (f : α → Bool),
    l.get? i = some a → f b = f a → (l.set i b).any f = l.any f := by
  induction l with
  | nil => intro i a b f ha _; cases ha
  | cons x tl ih =>
    intro i a b f ha hf
    cases i with
    | zero =>
      simp only [List.get?_cons_zero, Option.some.injEq] at ha
      subst ha
      simp [List.set, hf]
    | succ n =>
      simp only [List.set, List.any_cons]
      rw [ih n a b f ha hf]

theorem mem_set_transfer (calls : List FCall) : ∀ (i : Nat) (c : FCall) (sc' : Str),
    calls.get? i = some c → ∀ o ∈ calls,
      ∃ o', o' ∈ calls.set i { c with scall := sc' } ∧ o'.uuid = o.uuid ∧
        o'.nIdx = o.nIdx ∧ o'.mIdx = o.mIdx := by
  induction calls with
  | nil => intro i c sc' hc o ho; cases ho
  | cons x tl ih =>
    intro i c sc' hc o ho
    cases i with
    | zero =>
      simp only [List.get?_cons_zero, Option.some.injEq] at hc
      subst hc
      rcases List.mem_cons.mp ho with rfl | ho2
      · exact ⟨{ o with scall := sc' }, List.mem_cons_self _ _, rfl, rfl, rfl⟩
      · exact ⟨o, List.mem_cons_of_mem _ ho2, rfl, rfl, rfl⟩
    | succ n =>
      rcases List.mem_cons.mp ho with rfl | ho2
      · exact ⟨o, List.mem_cons_self _ _, rfl, rfl, rfl⟩
      · obtain ⟨o', ho', h1, h2, h3⟩ := ih n c sc' hc o ho2
        exact ⟨o', List.mem_cons_of_mem _ ho', h1, h2, h3⟩

theorem map_set_invariant (l : List α) : ∀ (i : Nat) (a b : α) (f : α → β),
    l.get? i = some a → f b = f a → (l.set i b).map f = l.map f := by
  induction l with
  | nil => intro i a b f ha _; cases ha
  | cons x tl ih =>
    intro i a b f ha hf
    cases i with
    | zero =>
      simp only [List.get?_cons_zero, Option.some.injEq] at ha
      subst ha
      simp [List.set, hf]
    | succ n =>
      simp only [List.set, List.map_cons]
      rw [ih n a b f ha hf]

theorem overlapAny_set (calls : List FCall) (i : Nat) (c : FCall) (sc' : Str)
    (hc : calls.get? i = some c) (idx : Nat) :
    overlapAny (calls.set i { c with scall := sc' }) idx = overlapAny calls idx := by
  unfold overlapAny
  exact any_set_eq calls i c _ _ hc rfl

/-- The per-call rewriting fold: replacing each raw overlapping call text by
its quoted token keeps the text balanced, and every token of the result is
either one of the inserted tokens or was already present. -/
theorem foldl_replace_inv (l : List FCall)
    (hl : ∀ o ∈ l, noQuote o.scall = true ∧ '(' ∈ o.scall ∧ ∃ kk, o.uuid = uuidStr kk) :
    ∀ (sc : Str), QInv sc →
    QInv (l.foldl (fun sc o => replaceFirst sc o.scall (quoteStr o.uuid)) sc) ∧
    ∀ t ∈ extractToks (l.foldl (fun sc o => replaceFirst sc o.scall (quoteStr o.uuid)) sc),
      (∃ o ∈ l, o.uuid = t) ∨ t ∈ extractToks sc := by
  induction l with
  | nil =>
    intro sc hQ
    exact ⟨hQ, fun t ht => Or.inr ht⟩
  | cons o tl ih =>
    intro sc hQ
    obtain ⟨hnq, hpar, kk, hkk⟩ := hl o (List.mem_cons_self _ _)
    have hu := uuidStr_chars kk
    have hstep := replace_step sc o.scall o.uuid hQ hnq hpar
      (by rw [hkk]; exact hu.1) (by rw [hkk]; exact hu.2)
    have htl : ∀ x ∈ tl, noQuote x.scall = true ∧ '(' ∈ x.scall ∧ ∃ kk, x.uuid = uuidStr kk :=
      fun x hx => hl x (List.mem_cons_of_mem _ hx)
    have hrec := ih htl (replaceFirst sc o.scall (quoteStr o.uuid)) hstep.1
    refine ⟨hrec.1, ?_⟩
    intro t ht
    rcases hrec.2 t ht with ⟨o2, ho2, hu2⟩ | hin
    · exact Or.inl ⟨o2, List.mem_cons_of_mem _ ho2, hu2⟩
    · rcases hstep.2 t hin with h1 | h2
      · exact Or.inl ⟨o, List.mem_cons_self _ _, h1.symm⟩
      · exact Or.inr h2

theorem noQuote_QInv (s : Str) (h : noQuote s = true) : QInv s := by
  refine ⟨by rw [noQuote_countQ s h], ?_⟩
  rw [insQ_noQuote s h false]
  intro c hc
  simp at hc

/-- The processing loop of `collect_func_calls` keeps the rewritten
expression balanced with every token the result token of some recorded call,
and leaves every call's captured text balanced with every token in it the
token of a recorded call that ends strictly earlier. -/
theorem cfcProcess_inv : ∀ (fuel : Nat) (calls : List FCall) (value : Str) (i : Nat),
    (∀ c ∈ calls, ∃ kk, c.uuid = uuidStr kk) →
    QInv value →
    (∀ t ∈ extractToks value, ∃ o ∈ calls, o.uuid = t) →
    (∀ j c, calls.get? j = some c →
      ((overlapAny calls c.mIdx = true ∨ i ≤ j) →
        noQuote c.scall = true ∧ '(' ∈ c.scall) ∧
      (¬(overlapAny calls c.mIdx = true ∨ i ≤ j) →
        QInv c.scall ∧ ∀ t ∈ extractToks c.scall,
          ∃ o ∈ calls, o.mIdx < c.mIdx ∧ o.uuid = t)) →
    QInv (cfcProcess fuel calls value i).1 ∧
    (∀ t ∈ extractToks (cfcProcess fuel calls value i).1,
      ∃ o ∈ (cfcProcess fuel calls value i).2, o.uuid = t) ∧
    (∀ j c, (cfcProcess fuel calls value i).2.get? j = some c →
      QInv c.scall ∧ ∀ t ∈ extractToks c.scall,
        ∃ o ∈ (cfcProcess fuel calls value i).2, o.mIdx < c.mIdx ∧ o.uuid = t) := by
  intro fuel
  induction fuel with
  | zero =>
    intro calls value i hU hQ hVT hEnt
    have e : cfcProcess 0 calls value i = (value, calls) := rfl
    rw [e]
    refine ⟨hQ, hVT, ?_⟩
    intro j c hjc
    by_cases hcond : overlapAny calls c.mIdx = true ∨ i ≤ j
    · obtain ⟨hnq, _⟩ := (hEnt j c hjc).1 hcond
      refine ⟨noQuote_QInv _ hnq, ?_⟩
      intro t ht
      rw [extractToks_noQuote _ hnq] at ht
      cases ht
    · exact (hEnt j c hjc).2 hcond
  | succ n ih =>
    intro calls value i hU hQ hVT hEnt
    have e : cfcProcess (n + 1) calls value i =
        (match calls.get? i with
         | none => (value, calls)
         | some c =>
           if overlapAny calls c.mIdx then cfcProcess n calls value (i + 1)
           else
             cfcProcess n
               (calls.set i { c with scall := ((calls.filter (fun o => decide (o.mIdx < c.mIdx) &&
                 decide (c.nIdx < o.mIdx))).foldl
                 (fun sc o => replaceFirst sc o.scall (quoteStr o.uuid)) c.scall) })
               (replaceFirst value c.scall (quoteStr c.uuid)) (i + 1)) := rfl
    cases hgi : calls.get? i with
    | none =>
      have e2 : cfcProcess (n + 1) calls value i = (value, calls) := by
        rw [e, hgi]
      rw [e2]
      refine ⟨hQ, hVT, ?_⟩
      intro j c hjc
      by_cases hcond : overlapAny calls c.mIdx = true ∨ i ≤ j
      · obtain ⟨hnq, _⟩ := (hEnt j c hjc).1 hcond
        refine ⟨noQuote_QInv _ hnq, ?_⟩
        intro t ht
        rw [extractToks_noQuote _ hnq] at ht
        cases ht
      · exact (hEnt j c hjc).2 hcond
    | some c =>
      have e2 : cfcProcess (n + 1) calls value i =
          (if overlapAny calls c.mIdx then cfcProcess n calls value (i + 1)
           else
             cfcProcess n
               (calls.set i { c with scall := ((calls.filter (fun o => decide (o.mIdx < c.mIdx) &&
                 decide (c.nIdx < o.mIdx))).foldl
                 (fun sc o => replaceFirst sc o.scall (quoteStr o.uuid)) c.scall) })
               (replaceFirst value c.scall (quoteStr c.uuid)) (i + 1)) := by
        rw [e, hgi]
      rw [e2]
      by_cases hov : overlapAny calls c.mIdx = true
      · rw [if_pos hov]
        apply ih calls value (i + 1) hU hQ hVT
        intro j c2 hjc2
        refine ⟨?_, ?_⟩
        · intro hcond
          apply (hEnt j c2 hjc2).1
          rcases hcond with h | h
          · exact Or.inl h
          · exact Or.inr (by omega)
        · intro hcond
          apply (hEnt j c2 hjc2).2
          intro hcond2
          apply hcond
          rcases hcond2 with h | h
          · exact Or.inl h
          · by_cases hji : j = i
            · subst hji
              have hcc : c = c2 := Option.some.inj (hgi.symm.trans hjc2)
              exact Or.inl (hcc ▸ hov)
            · exact Or.inr (by omega)
      · rw [if_neg hov]
        have hovF : overlapAny calls c.mIdx = false := by
          cases hb : overlapAny calls c.mIdx
          · rfl
          · exact absurd hb hov
        have hcmem : c ∈ calls := List.get?_mem hgi
        obtain ⟨hnq, hpar⟩ := (hEnt i c hgi).1 (Or.inr (le_refl i))
        obtain ⟨kk, hkk⟩ := hU c hcmem
        have hustep := uuidStr_chars kk
        have hval := replace_step value c.scall c.uuid hQ hnq hpar
          (by rw [hkk]; exact hustep.1) (by rw [hkk]; exact hustep.2)
        have hovsP : ∀ o ∈ calls.filter (fun o => decide (o.mIdx < c.mIdx) &&
            decide (c.nIdx < o.mIdx)),
            noQuote o.scall = true ∧ '(' ∈ o.scall ∧ ∃ kk2, o.uuid = uuidStr kk2 := by
          intro o ho
          have hom : o ∈ calls := List.mem_of_mem_filter ho
          have hfp := List.of_mem_filter ho
          simp only [Bool.and_eq_true, decide_eq_true_eq] at hfp
          have hovo : overlapAny calls o.mIdx = true := by
            unfold overlapAny
            rw [List.any_eq_true]
            refine ⟨c, hcmem, ?_⟩
            simp only [Bool.and_eq_true, decide_eq_true_eq]
            exact ⟨hfp.2, hfp.1⟩
          obtain ⟨jo, hjo⟩ := List.get?_of_mem hom
          have hro := (hEnt jo o hjo).1 (Or.inl hovo)
          exact ⟨hro.1, hro.2, hU o hom⟩
        have hfold := foldl_replace_inv _ hovsP c.scall (noQuote_QInv _ hnq)
        have hscall2 : ∀ t ∈ extractToks
            ((calls.filter (fun o => decide (o.mIdx < c.mIdx) &&
                decide (c.nIdx < o.mIdx))).foldl
              (fun sc o => replaceFirst sc o.scall (quoteStr o.uuid)) c.scall),
            ∃ o ∈ calls, o.mIdx < c.mIdx ∧ o.uuid = t := by
          intro t ht
          rcases hfold.2 t ht with ⟨o, ho, hu⟩ | hin
          · have hom : o ∈ calls := List.mem_of_mem_filter ho
            have hfp := List.of_mem_filter ho
            simp only [Bool.and_eq_true, decide_eq_true_eq] at hfp
            exact ⟨o, hom, hfp.1, hu⟩
          · rw [extractToks_noQuote _ hnq] at hin
            cases hin
        apply ih
        · intro x hx
          rcases List.mem_or_eq_of_mem_set hx with hx1 | hx2
          · exact hU x hx1
          · subst hx2
            exact hU c hcmem
        · exact hval.1
        · intro t ht
          rcases hval.2 t ht with h1 | h2
          · subst h1
            obtain ⟨o', ho', hu', _, _⟩ := mem_set_transfer calls i c _ hgi c hcmem
            exact ⟨o', ho', hu'⟩
          · obtain ⟨o, ho, hu⟩ := hVT t h2
            obtain ⟨o', ho', hu', _, _⟩ := mem_set_transfer calls i c _ hgi o ho
            exact ⟨o', ho', hu'.trans hu⟩
        · intro j c2 hjc2
          by_cases hji : j = i
          · subst hji
            have hlt : j < calls.length := by
              by_contra hge
              rw [List.get?_eq_none.mpr (by omega)] at hgi
              cases hgi
            have hc2 : c2 = { c with scall := ((calls.filter (fun o => decide (o.mIdx < c.mIdx) &&
                decide (c.nIdx < o.mIdx))).foldl
                (fun sc o => replaceFirst sc o.scall (quoteStr o.uuid)) c.scall) } := by
              rw [List.get?_set_eq_of_lt _ hlt] at hjc2
              exact (Option.some.inj hjc2).symm
            have hovc2 : overlapAny (calls.set j { c with scall := ((calls.filter (fun o => decide (o.mIdx < c.mIdx) &&
                decide (c.nIdx < o.mIdx))).foldl
                (fun sc o => replaceFirst sc o.scall (quoteStr o.uuid)) c.scall) })
                c2.mIdx = false := by
              rw [hc2]
              show overlapAny _ c.mIdx = false
              rw [overlapAny_set calls j c _ hgi]
              exact hovF
            refine ⟨?_, ?_⟩
            · intro hcond
              rcases hcond with h | h
              · rw [hovc2] at h
                cases h
              · omega
            · intro _
              refine ⟨by rw [hc2]; exact hfold.1, ?_⟩
              intro t ht
              rw [hc2] at ht
              obtain ⟨o, ho, hm, hu⟩ := hscall2 t ht
              obtain ⟨o', ho', hu', _, hm'⟩ := mem_set_transfer calls j c _ hgi o ho
              refine ⟨o', ho', ?_, hu'.trans hu⟩
              rw [hm', hc2]
              exact hm
          · have hjc2' : calls.get? j = some c2 := by
              rw [List.get?_set_ne _ _ (fun hh => hji hh.symm)] at hjc2
              exact hjc2
            have hoveq : overlapAny (calls.set i { c with scall := ((calls.filter (fun o => decide (o.mIdx < c.mIdx) &&
                decide (c.nIdx < o.mIdx))).foldl
                (fun sc o => replaceFirst sc o.scall (quoteStr o.uuid)) c.scall) })
                c2.mIdx = overlapAny calls c2.mIdx :=
              overlapAny_set calls i c _ hgi c2.mIdx
            refine ⟨?_, ?_⟩
            · intro hcond
              apply (hEnt j c2 hjc2').1
              rcases hcond with h | h
              · rw [hoveq] at h
                exact Or.inl h
              · exact Or.inr (by omega)
            · intro hcond
              have hdone := (hEnt j c2 hjc2').2 (by
                intro hcond2
                apply hcond
                rcases hcond2 with h | h
                · rw [hoveq]
                  exact Or.inl h
                · exact Or.inr (by omega))
              refine ⟨hdone.1, ?_⟩
              intro t ht
              obtain ⟨o, ho, hm, hu⟩ := hdone.2 t ht
              obtain ⟨o', ho', hu', _, hm'⟩ := mem_set_transfer calls i c _ hgi o ho
              exact ⟨o', ho', by rw [hm']; exact hm, hu'.trans hu⟩

/-- The processing loop never changes a call's token, start or end. -/
theorem cfcProcess_map : ∀ (fuel : Nat) (calls : List FCall) (value : Str) (i : Nat),
    ((cfcProcess fuel calls value i).2).map (fun c => (c.uuid, c.nIdx, c.mIdx)) =
      calls.map (fun c => (c.uuid, c.nIdx, c.mIdx)) := by
  intro fuel
  induction fuel with
  | zero => intro calls value i; rfl
  | succ n ih =>
    intro calls value i
    have e : cfcProcess (n + 1) calls value i =
        (match calls.get? i with
         | none => (value, calls)
         | some c =>
           if overlapAny calls c.mIdx then cfcProcess n calls value (i + 1)
           else
             cfcProcess n
               (calls.set i { c with scall := ((calls.filter (fun o => decide (o.mIdx < c.mIdx) &&
                   decide (c.nIdx < o.mIdx))).foldl
                   (fun sc o => replaceFirst sc o.scall (quoteStr o.uuid)) c.scall) })
               (replaceFirst value c.scall (quoteStr c.uuid)) (i + 1)) := rfl
    cases hgi : calls.get? i with
    | none =>
      have e2 : cfcProcess (n + 1) calls value i = (value, calls) := by
        rw [e, hgi]
      rw [e2]
    | some c =>
      have e2 : cfcProcess (n + 1) calls value i =
          (if overlapAny calls c.mIdx then cfcProcess n calls value (i + 1)
           else
             cfcProcess n
               (calls.set i { c with scall := ((calls.filter (fun o => decide (o.mIdx < c.mIdx) &&
                   decide (c.nIdx < o.mIdx))).foldl
                   (fun sc o => replaceFirst sc o.scall (quoteStr o.uuid)) c.scall) })
               (replaceFirst value c.scall (quoteStr c.uuid)) (i + 1)) := by
        rw [e, hgi]
      rw [e2]
      by_cases hov : overlapAny calls c.mIdx = true
      · rw [if_pos hov]
        exact ih calls value (i + 1)
      · rw [if_neg hov]
        rw [ih _ _ (i + 1)]
        exact map_set_invariant calls i c _ _ hgi rfl

theorem pairwise_get?_le (cs : List FCall)
    (hs : List.Pairwise (fun a b : FCall => a.mIdx ≤ b.mIdx) cs) :
    ∀ (j1 j2 : Nat), j1 < j2 → ∀ (a b : FCall),
      cs.get? j1 = some a → cs.get? j2 = some b → a.mIdx ≤ b.mIdx := by
  induction cs with
  | nil => intro j1 j2 _ a b h1 _; cases h1
  | cons x tl ih =>
    intro j1 j2 h12 a b h1 h2
    cases j1 with
    | zero =>
      simp only [List.get?_cons_zero, Option.some.injEq] at h1
      subst h1
      cases j2 with
      | zero => omega
      | succ k2 =>
        have hb : b ∈ tl := List.get?_mem h2
        exact (List.pairwise_cons.mp hs).1 b hb
    | succ k1 =>
      cases j2 with
      | zero => omega
      | succ k2 =>
        exact ih (List.pairwise_cons.mp hs).2 k1 k2 (by omega) a b h1 h2

theorem storesOf_genFCC (cs : List FCall) :
    (genFCC cs).flatMap storesOf = cs.map FCall.uuid := by
  induction cs with
  | nil => rfl
  | cons c tl ih =>
    show (genFCC (c :: tl)).flatMap storesOf = c.uuid :: tl.map FCall.uuid
    have e : genFCC (c :: tl) =
        [Cmd.funcCall (fcallName c.scall) (fcallArgs c.scall),
         Cmd.storeFuncRet c.uuid,
         Cmd.valueResult (fcallName c.scall) (fcallArgs c.scall),
         Cmd.scopeDel true] ++ genFCC tl := rfl
    rw [e, List.flatMap_append, ih]
    rfl

theorem readSafeGo_append (xs : List Cmd) : ∀ (st : List Str) (ys : List Cmd),
    readSafeGo st (xs ++ ys) =
      (readSafeGo st xs && readSafeGo (st ++ xs.flatMap storesOf) ys) := by
  induction xs with
  | nil =>
    intro st ys
    simp [readSafeGo]
  | cons c tl ih =>
    intro st ys
    show ((cmdTokenReads c).all (fun t => st.contains t) &&
        readSafeGo (st ++ storesOf c) (tl ++ ys)) = _
    rw [ih (st ++ storesOf c) ys]
    show _ = ((cmdTokenReads c).all (fun t => st.contains t) &&
        readSafeGo (st ++ storesOf c) tl &&
        readSafeGo (st ++ (storesOf c ++ tl.flatMap storesOf)) ys)
    rw [Bool.and_assoc, List.append_assoc]

/-- Safety of the generated call blocks: if every token a call's arguments
read is already stored or is the token of an earlier call in the list, the
whole generated sequence passes the read-before-write check. -/
theorem readSafe_blocks : ∀ (cs : List FCall) (stored : List Str),
    (∀ j c, cs.get? j = some c → ∀ t ∈ (fcallArgs c.scall).flatMap extractToks,
       t ∈ stored ∨ ∃ j2 c2, j2 < j ∧ cs.get? j2 = some c2 ∧ c2.uuid = t) →
    readSafeGo stored (genFCC cs) = true := by
  intro cs
  induction cs with
  | nil => intro stored _; rfl
  | cons c tl ih =>
    intro stored hc
    have e : genFCC (c :: tl) =
        [Cmd.funcCall (fcallName c.scall) (fcallArgs c.scall),
         Cmd.storeFuncRet c.uuid,
         Cmd.valueResult (fcallName c.scall) (fcallArgs c.scall),
         Cmd.scopeDel true] ++ genFCC tl := rfl
    rw [e, readSafeGo_append, Bool.and_eq_true]
    constructor
    · have hA1 : ((fcallArgs c.scall).flatMap extractToks).all
          (fun t => stored.contains t) = true := by
        rw [List.all_eq_true]
        intro t ht
        rcases hc 0 c rfl t ht with h1 | ⟨j2, c2, hj2, _, _⟩
        · exact List.elem_iff.mpr h1
        · omega
      show (((fcallArgs c.scall).flatMap extractToks).all
          (fun t => stored.contains t) && _) = true
      rw [hA1]
      rfl
    · apply ih
      intro j c2 hjc2 t ht
      rcases hc (j + 1) c2 hjc2 t ht with h1 | ⟨j2, c2', hlt, hget, huid⟩
      · exact Or.inl (List.mem_append_left _ h1)
      · cases j2 with
        | zero =>
          left
          have hcc : c = c2' := Option.some.inj hget
          apply List.mem_append_right
          rw [← huid, ← hcc]
          simp [storesOf]
        | succ j2' =>
          exact Or.inr ⟨j2', c2', by omega, hget, huid⟩

/-- C8: for every quote-free expression text the analyzer accepts, the
generated command sequence is read-safe: the processed calls are listed in
ascending end-offset order, no call's `FuncCall` reads a result token whose
`StoreCallResult` has not already executed, and the rewritten expression
appended after the call blocks reads only tokens that are stored by then. -/
theorem claim_C8 (value : Str) (k : Nat) (v' : Str) (cs : List FCall) (k' : Nat)
    (hq : noQuote value = true)
    (h : collectFuncCalls value k = some (v', cs, k')) :
    List.Pairwise (fun a b : FCall => a.mIdx ≤ b.mIdx) cs ∧
    readSafeGo [] (genFCC cs) = true ∧
    ∀ nm : Str, readSafeGo [] (genFCC cs ++ [Cmd.assignVar nm v']) = true := by
  unfold collectFuncCalls at h
  split at h
  · exact absurd h (by simp)
  · rename_i fcs k2 hscan
    have h' : some
        ((cfcProcess ((List.insertionSort (fun a b : FCall => a.mIdx ≤ b.mIdx) fcs).length + 1)
          (List.insertionSort (fun a b : FCall => a.mIdx ≤ b.mIdx) fcs) value 0).1,
         (cfcProcess ((List.insertionSort (fun a b : FCall => a.mIdx ≤ b.mIdx) fcs).length + 1)
          (List.insertionSort (fun a b : FCall => a.mIdx ≤ b.mIdx) fcs) value 0).2,
         k2) = some (v', cs, k') := h
    simp only [Option.some.injEq, Prod.mk.injEq] at h'
    obtain ⟨hv, hcs, _⟩ := h'
    have hscanF := cfcScan_entries value hq (value.length + 1) 0 k [] (fcs, k2)
      (by intro x hx; cases hx) hscan
    have hperm := List.perm_insertionSort (fun a b : FCall => a.mIdx ≤ b.mIdx) fcs
    have hsorted := List.sorted_insertionSort (fun a b : FCall => a.mIdx ≤ b.mIdx) fcs
    have hSfacts : ∀ x ∈ List.insertionSort (fun a b : FCall => a.mIdx ≤ b.mIdx) fcs,
        (noQuote x.scall = true ∧ '(' ∈ x.scall) ∧ ∃ kk, x.uuid = uuidStr kk :=
      fun x hx => hscanF x (hperm.mem_iff.mp hx)
    have hinv := cfcProcess_inv
      ((List.insertionSort (fun a b : FCall => a.mIdx ≤ b.mIdx) fcs).length + 1)
      (List.insertionSort (fun a b : FCall => a.mIdx ≤ b.mIdx) fcs) value 0
      (fun c hcm => (hSfacts c hcm).2)
      (noQuote_QInv value hq)
      (by
        intro t ht
        rw [extractToks_noQuote value hq] at ht
        cases ht)
      (by
        intro j c hjc
        refine ⟨fun _ => (hSfacts c (List.get?_mem hjc)).1, ?_⟩
        intro hcond
        exact absurd (Or.inr (Nat.zero_le j)) hcond)
    rw [hv, hcs] at hinv
    obtain ⟨_, hVT2, hEnt2⟩ := hinv
    have hmap := cfcProcess_map
      ((List.insertionSort (fun a b : FCall => a.mIdx ≤ b.mIdx) fcs).length + 1)
      (List.insertionSort (fun a b : FCall => a.mIdx ≤ b.mIdx) fcs) value 0
    rw [hcs] at hmap
    have hmIdx : cs.map FCall.mIdx =
        (List.insertionSort (fun a b : FCall => a.mIdx ≤ b.mIdx) fcs).map FCall.mIdx := by
      have := congrArg (List.map (fun p : Str × Nat × Nat => p.2.2)) hmap
      simpa [List.map_map, Function.comp] using this
    have hPb : List.Pairwise (fun a b : FCall => a.mIdx ≤ b.mIdx) cs := by
      have h1 : List.Pairwise (fun x y : Nat => x ≤ y)
          ((List.insertionSort (fun a b : FCall => a.mIdx ≤ b.mIdx) fcs).map FCall.mIdx) :=
        List.pairwise_map.mpr hsorted
      rw [← hmIdx] at h1
      exact List.pairwise_map.mp h1
    have hsafe : readSafeGo [] (genFCC cs) = true := by
      apply readSafe_blocks cs []
      intro j c hjc t ht
      obtain ⟨arg, hargm, htm⟩ := List.mem_flatMap.mp ht
      have hQc := (hEnt2 j c hjc).1
      have hts : t ∈ extractToks c.scall := fcallArgs_toks c.scall hQc arg hargm t htm
      obtain ⟨o, ho, hm, hu⟩ := (hEnt2 j c hjc).2 t hts
      obtain ⟨j2, hj2⟩ := List.get?_of_mem ho
      right
      refine ⟨j2, o, ?_, hj2, hu⟩
      rcases Nat.lt_trichotomy j2 j with hlt | heqj | hgt
      · exact hlt
      · exfalso
        subst heqj
        have hco : c = o := Option.some.inj (hjc.symm.trans hj2)
        rw [← hco] at hm
        omega
      · exfalso
        have := pairwise_get?_le cs hPb j j2 hgt c o hjc hj2
        omega
    refine ⟨hPb, hsafe, ?_⟩
    intro nm
    rw [readSafeGo_append, Bool.and_eq_true]
    refine ⟨hsafe, ?_⟩
    show ((cmdTokenReads (Cmd.assignVar nm v')).all
        (fun t => (([] : List Str) ++ (genFCC cs).flatMap storesOf).contains t) &&
      readSafeGo _ []) = true
    rw [Bool.and_eq_true]
    refine ⟨?_, rfl⟩
    rw [List.all_eq_true]
    intro t ht
    obtain ⟨o, ho, hu⟩ := hVT2 t ht
    apply List.elem_iff.mpr
    apply List.mem_append_right
    rw [storesOf_genFCC]
    exact List.mem_map.mpr ⟨o, ho, hu⟩

/-- Witness for C8: the nested call expression `f(g(1))` — the analyzer
records `g(1)` before `f("<token>")`, and the generated sequence passes the
read-before-write check. -/
theorem claim_C8_witness :
    noQuote (strOf "f(g(1))") = true ∧
    collectFuncCalls (strOf "f(g(1))") 0 =
      some (strOf "\"u\"",
        [{ scall := strOf "g(1)", uuid := strOf "ux", nIdx := 2, mIdx := 6 },
         { scall := strOf "f(\"ux\")", uuid := strOf "u", nIdx := 0, mIdx := 7 }], 2) ∧
    readSafeGo [] (genFCC
        [{ scall := strOf "g(1)", uuid := strOf "ux", nIdx := 2, mIdx := 6 },
         { scall := strOf "f(\"ux\")", uuid := strOf "u", nIdx := 0, mIdx := 7 }]) = true :=
  ⟨rfl, rfl,
    (claim_C8 (strOf "f(g(1))") 0 (strOf "\"u\"")
      [{ scall := strOf "g(1)", uuid := strOf "ux", nIdx := 2, mIdx := 6 },
       { scall := strOf "f(\"ux\")", uuid := strOf "u", nIdx := 0, mIdx := 7 }] 2
      rfl rfl).2.1⟩

end Erwig
